import Mathlib

/-!
# advanced-vector: `RawMemory<T>` and `Vector<T>` (vector.h)

A shallow embedding of `src/advanced-vector/vector.h`.

* A block obtained from `operator new` is a list of slots; a slot either holds
  no object (raw storage) or a live object of the element type with a value.
* A pointer into a block is the block together with a slot index.
* The element type `T` is a parameter: its size and the behaviour of its
  constructors and assignment operators, each of which may throw.
* A member function maps the state before the call to an `Outcome`: normal
  return, an exception leaving the function (together with the state it leaves
  behind), or undefined behaviour.
* An operation of the element type that throws leaves its operands as they
  were; a move that succeeds leaves in its source whatever the element type
  says it leaves there.
* The standard algorithms the header calls (`std::uninitialized_copy_n`,
  `std::move_backward`, ...) are written out after their specification in the
  C++ standard, with the loop each of them is.
* `size_t` products and the increment of `size_` are taken modulo
  `2 ^ word_bits`; differences that the code guards by a comparison are plain
  differences.
* An argument passed by reference refers to an object outside the array: a call
  such as `v.Insert(pos, v[0])` is not covered.
-/

namespace AdvancedVector

/-! ## The platform and the element type -/

/-- The machine: the width of `size_t` and the global allocation function. -/
structure Platform where
  /-- number of bits of `size_t` -/
  word_bits : Nat
  /-- whether `operator new(bytes)` grants the request (otherwise it throws `std::bad_alloc`) -/
  operator_new : Nat → Bool

/-- Arithmetic on `size_t` is arithmetic modulo `2 ^ word_bits`. -/
def Platform.wrap (P : Platform) (n : Nat) : Nat := n % 2 ^ P.word_bits

/-- The element type `T` of the templates, as far as the container uses it.
An operation returns `Except.error e` when it throws `e`. -/
structure ElemType (α ε : Type) where
  /-- `sizeof(T)` -/
  sizeof : Nat
  /-- `std::is_nothrow_move_constructible_v<T>` -/
  is_nothrow_move_constructible : Bool
  /-- `std::is_copy_constructible_v<T>` -/
  is_copy_constructible : Bool
  /-- `T()`: value-initialisation -/
  value_ctor : Except ε α
  /-- `T(const T&)`: the new object -/
  copy_ctor : α → Except ε α
  /-- `T(T&&)`: the new object, and the value the source is left with -/
  move_ctor : α → Except ε (α × α)
  /-- `dst = src` (arguments: old `dst`, `src`): the new value of `dst` -/
  copy_assign : α → α → Except ε α
  /-- `dst = std::move(src)` (arguments: old `dst`, `src`): the new value of `dst`,
  and the value the source is left with -/
  move_assign : α → α → Except ε (α × α)

/-- The argument pack `Args&&... args` of `Emplace`/`EmplaceBack` as the callers in
this file use it: one `const T&` (from `PushBack(const T&)`, `Insert(pos, const T&)`)
or one `T&&` (from `PushBack(T&&)`, `Insert(pos, T&&)`), with the value of the
object referred to. The object referred to is taken to be an object of its own,
not an element of the array the member function is called on: its value is the
one it has when the call is made, whatever the call does to the array before it
constructs from the argument. -/
inductive Arg (α : Type) where
  | lvalue (x : α)
  | rvalue (x : α)
  deriving DecidableEq

/-- `T(std::forward<Args>(args)...)`: the constructed object and the argument
afterwards. A `const T&` is copied and keeps its value; a `T&&` is moved from. -/
def ElemType.construct {α ε : Type} (T : ElemType α ε) : Arg α → Except ε (α × Arg α)
  | .lvalue x =>
    match T.copy_ctor x with
    | .ok y => .ok (y, .lvalue x)
    | .error e => .error e
  | .rvalue x =>
    match T.move_ctor x with
    | .ok (y, r) => .ok (y, .rvalue r)
    | .error e => .error e

/-- What can be thrown. -/
inductive Exception (ε : Type) where
  /-- `std::bad_alloc` from `operator new` -/
  | bad_alloc
  /-- `std::runtime_error(what)` -/
  | runtime_error (what : String)
  /-- an exception `e` thrown by an operation of the element type -/
  | elem (e : ε)
  deriving DecidableEq

/-- Result of running a piece of code from a state of type `σ`. -/
inductive Outcome (ε σ ρ : Type) where
  /-- normal completion with result `r`, leaving state `s` -/
  | ret (r : ρ) (s : σ)
  /-- the exception `e` leaves the code, which leaves state `s` behind -/
  | threw (e : Exception ε) (s : σ)
  /-- undefined behaviour: access outside a block, use of a slot that holds no
  object, construction in a slot that is not raw storage, an ill-formed iterator
  range -/
  | ub
  deriving DecidableEq

/-! ## Blocks of raw storage -/

/-- Storage for a number of `T`s: `none` is a slot without an object, `some x` a
live object with value `x`. -/
abbrev Block (α : Type) := List (Option α)

variable {α ε : Type}

/-- `*p` for `p` pointing at slot `i`: defined when the slot holds an object. -/
def Block.read (b : Block α) (i : Nat) : Option α :=
  match b[i]? with
  | some (some x) => some x
  | _ => none

/-- Whether slot `i` exists and holds no object, so that an object may be
constructed there. -/
def Block.is_raw (b : Block α) (i : Nat) : Bool :=
  match b[i]? with
  | some none => true
  | _ => false

/-- Slot `i` holds an object of value `x` from now on: the result of an
assignment to the object there, or of a constructor that ran on the raw slot. -/
def Block.assign (b : Block α) (i : Nat) (x : α) : Block α :=
  b.set i (some x)

/-- Number of live objects in a block. -/
def Block.live (b : Block α) : Nat :=
  (b.filter Option.isSome).length

namespace std

/-- `std::destroy_at(p)`, `p->~T()`: ends the life of the object in slot `i`. -/
def destroy_at (b : Block α) (i : Nat) : Option (Block α) :=
  match b[i]? with
  | some (some _) => some (b.set i none)
  | _ => none

/-- `std::destroy_n(first, n)`: `for (; n > 0; ++first, --n) destroy_at(first)`. -/
def destroy_n (b : Block α) (first : Nat) : Nat → Option (Block α)
  | 0 => some b
  | n + 1 =>
    match destroy_at b first with
    | none => none
    | some b1 => destroy_n b1 (first + 1) n

/-- The loop of `std::uninitialized_copy_n`:
`for (; n > 0; ++first, ++cur, --n) ::new (cur) T(*first);`
State: the destination block and `cur`. -/
def uninitialized_copy_loop (T : ElemType α ε) (src : Block α) :
    Nat → Nat → Block α → Nat → Outcome ε (Block α × Nat) Unit
  | _, 0, dst, cur => .ret () (dst, cur)
  | first, n + 1, dst, cur =>
    match src.read first, dst.is_raw cur with
    | some x, true =>
      match T.copy_ctor x with
      | .error e => .threw (.elem e) (dst, cur)
      | .ok y => uninitialized_copy_loop T src (first + 1) n (dst.assign cur y) (cur + 1)
    | _, _ => .ub

/-- `std::uninitialized_copy_n(first, n, d_first)` from block `src` into block
`dst`: on an exception the objects already constructed are destroyed and the
exception is rethrown. -/
def uninitialized_copy_n (T : ElemType α ε) (src : Block α) (first n : Nat)
    (dst : Block α) (d_first : Nat) : Outcome ε (Block α) Unit :=
  match uninitialized_copy_loop T src first n dst d_first with
  | .ret _ (dst1, _) => .ret () dst1
  | .threw e (dst1, cur) =>
    match destroy_n dst1 d_first (cur - d_first) with
    | none => .ub
    | some dst2 => .threw e dst2
  | .ub => .ub

/-- The loop of `std::uninitialized_move_n`:
`for (; n > 0; ++first, ++cur, --n) ::new (cur) T(std::move(*first));`
State: the source block, the destination block and `cur`. -/
def uninitialized_move_loop (T : ElemType α ε) :
    Nat → Nat → Block α → Block α → Nat → Outcome ε (Block α × Block α × Nat) Unit
  | _, 0, src, dst, cur => .ret () (src, dst, cur)
  | first, n + 1, src, dst, cur =>
    match src.read first, dst.is_raw cur with
    | some x, true =>
      match T.move_ctor x with
      | .error e => .threw (.elem e) (src, dst, cur)
      | .ok (y, r) =>
        uninitialized_move_loop T (first + 1) n (src.assign first r) (dst.assign cur y)
          (cur + 1)
    | _, _ => .ub

/-- `std::uninitialized_move_n(first, n, d_first)` from block `src` into block
`dst`: on an exception the objects already constructed in `dst` are destroyed
(the sources already moved from stay moved from) and the exception is rethrown.
State: source block and destination block. -/
def uninitialized_move_n (T : ElemType α ε) (src : Block α) (first n : Nat)
    (dst : Block α) (d_first : Nat) : Outcome ε (Block α × Block α) Unit :=
  match uninitialized_move_loop T first n src dst d_first with
  | .ret _ (src1, dst1, _) => .ret () (src1, dst1)
  | .threw e (src1, dst1, cur) =>
    match destroy_n dst1 d_first (cur - d_first) with
    | none => .ub
    | some dst2 => .threw e (src1, dst2)
  | .ub => .ub

/-- The loop of `std::uninitialized_value_construct_n`:
`for (; n > 0; ++cur, --n) ::new (cur) T();` -/
def uninitialized_value_construct_loop (T : ElemType α ε) :
    Nat → Block α → Nat → Outcome ε (Block α × Nat) Unit
  | 0, b, cur => .ret () (b, cur)
  | n + 1, b, cur =>
    if b.is_raw cur then
      match T.value_ctor with
      | .error e => .threw (.elem e) (b, cur)
      | .ok y => uninitialized_value_construct_loop T n (b.assign cur y) (cur + 1)
    else .ub

/-- `std::uninitialized_value_construct_n(first, n)`: on an exception the objects
already constructed are destroyed and the exception is rethrown. -/
def uninitialized_value_construct_n (T : ElemType α ε) (b : Block α) (first n : Nat) :
    Outcome ε (Block α) Unit :=
  match uninitialized_value_construct_loop T n b first with
  | .ret _ (b1, _) => .ret () b1
  | .threw e (b1, cur) =>
    match destroy_n b1 first (cur - first) with
    | none => .ub
    | some b2 => .threw e b2
  | .ub => .ub

/-- The loop of `std::move_backward`, `n` iterations of
`*(--d_last) = std::move(*(--last));` inside one block. -/
def move_backward_loop (T : ElemType α ε) :
    Nat → Block α → Nat → Nat → Outcome ε (Block α) Unit
  | 0, b, _, _ => .ret () b
  | n + 1, b, last, d_last =>
    if last = 0 ∨ d_last = 0 then .ub
    else
      match b.read (last - 1), b.read (d_last - 1) with
      | some s, some d =>
        match T.move_assign d s with
        | .error e => .threw (.elem e) b
        | .ok (d1, s1) =>
          move_backward_loop T n ((b.assign (last - 1) s1).assign (d_last - 1) d1)
            (last - 1) (d_last - 1)
      | _, _ => .ub

/-- `std::move_backward(first, last, d_last)` on slots of one block. The range
`[first, last)` has to be a valid range: `first` must not lie behind `last`. -/
def move_backward (T : ElemType α ε) (b : Block α) (first last d_last : Nat) :
    Outcome ε (Block α) Unit :=
  if first ≤ last then move_backward_loop T (last - first) b last d_last
  else .ub

/-- The loop of the algorithm `std::move`, `n` iterations of
`*d_first++ = std::move(*first++);` inside one block. -/
def move_loop (T : ElemType α ε) :
    Nat → Block α → Nat → Nat → Outcome ε (Block α) Unit
  | 0, b, _, _ => .ret () b
  | n + 1, b, first, d_first =>
    match b.read first, b.read d_first with
    | some s, some d =>
      match T.move_assign d s with
      | .error e => .threw (.elem e) b
      | .ok (d1, s1) =>
        move_loop T n ((b.assign first s1).assign d_first d1) (first + 1) (d_first + 1)
    | _, _ => .ub

/-- The algorithm `std::move(first, last, d_first)` on slots of one block. The
range `[first, last)` has to be a valid range. -/
def move (T : ElemType α ε) (b : Block α) (first last d_first : Nat) :
    Outcome ε (Block α) Unit :=
  if first ≤ last then move_loop T (last - first) b first d_first
  else .ub

/-- `std::copy_n(first, n, d_first)` from block `src` into live slots of block
`dst`: `for (; n > 0; --n) *d_first++ = *first++;` -/
def copy_n (T : ElemType α ε) (src : Block α) :
    Nat → Nat → Block α → Nat → Outcome ε (Block α) Unit
  | _, 0, dst, _ => .ret () dst
  | first, n + 1, dst, d_first =>
    match src.read first, dst.read d_first with
    | some s, some d =>
      match T.copy_assign d s with
      | .error e => .threw (.elem e) dst
      | .ok d1 => copy_n T src (first + 1) n (dst.assign d_first d1) (d_first + 1)
    | _, _ => .ub

end std

/-- The size_t difference `a - b`, which wraps around below zero. -/
def Platform.sub (P : Platform) (a b : Nat) : Nat := P.wrap (a + 2 ^ P.word_bits - b)

/-- The expression `new (p) T(std::forward<Args>(args)...)` for `p` pointing at
slot `i`. Result: the argument afterwards. -/
def placement_new (T : ElemType α ε) (b : Block α) (i : Nat) (args : Arg α) :
    Outcome ε (Block α) (Arg α) :=
  if b.is_raw i then
    match T.construct args with
    | .error e => .threw (.elem e) b
    | .ok (x, args1) => .ret args1 (b.assign i x)
  else .ub

/-! ## `RawMemory<T>` -/

/-- The class `RawMemory<T>`. -/
structure RawMemory (α : Type) where
  /-- `T* buffer_ = nullptr`: `none` is the null pointer, `some b` points to the
  first slot of block `b` -/
  buffer_ : Option (Block α) := none
  /-- `size_t capacity_ = 0` -/
  capacity_ : Nat := 0
  deriving DecidableEq

namespace RawMemory

/-- `static T* Allocate(size_t n)`:
`n != 0 ? static_cast<T*>(operator new(n * sizeof(T))) : nullptr`.
The product is a size_t product. A request that is granted yields a block of
that many bytes, which has room for `bytes / sizeof(T)` objects. -/
def Allocate (P : Platform) (T : ElemType α ε) (n : Nat) :
    Except (Exception ε) (Option (Block α)) :=
  if n ≠ 0 then
    if P.operator_new (P.wrap (n * T.sizeof)) then
      .ok (some (List.replicate (P.wrap (n * T.sizeof) / T.sizeof) none))
    else .error .bad_alloc
  else .ok none

/-- `static void Deallocate(T* buf) noexcept`: `operator delete(buf)`. The block
is gone afterwards; the result is the number of objects that were still alive in
it, whose destructors never run. -/
def Deallocate (buf : Option (Block α)) : Nat :=
  match buf with
  | none => 0
  | some b => b.live

/-- `explicit RawMemory(size_t capacity)`. -/
def ctor_capacity (P : Platform) (T : ElemType α ε) (capacity : Nat) :
    Except (Exception ε) (RawMemory α) :=
  match Allocate P T capacity with
  | .ok buf => .ok { buffer_ := buf, capacity_ := capacity }
  | .error e => .error e

/-- `RawMemory(RawMemory&& other) noexcept`: the new object and `other` afterwards. -/
def ctor_move (other : RawMemory α) : RawMemory α × RawMemory α :=
  ({ buffer_ := other.buffer_, capacity_ := other.capacity_ },
   { buffer_ := none, capacity_ := 0 })

/-- `~RawMemory()`: `Deallocate(buffer_)`. -/
def dtor (m : RawMemory α) : Nat := Deallocate m.buffer_

/-- `void Swap(RawMemory& other) noexcept`: both objects afterwards. -/
def Swap (self other : RawMemory α) : RawMemory α × RawMemory α :=
  ({ buffer_ := other.buffer_, capacity_ := other.capacity_ },
   { buffer_ := self.buffer_, capacity_ := self.capacity_ })

/-- `T* GetAddress()`: the slots that can be reached through the pointer. The
null pointer reaches none. -/
def GetAddress (m : RawMemory α) : Block α := m.buffer_.getD []

/-- The object after the slots reached through `GetAddress()` have become `b`. -/
def put (m : RawMemory α) (b : Block α) : RawMemory α :=
  { m with buffer_ := m.buffer_.map (fun _ => b) }

/-- `size_t Capacity() const`. -/
def Capacity (m : RawMemory α) : Nat := m.capacity_

end RawMemory

/-! ## `Vector<T>` -/

/-- The class `Vector<T>`. -/
structure Vector (α : Type) where
  /-- `RawMemory<T> data_` -/
  data_ : RawMemory α := {}
  /-- `size_t size_ = 0` -/
  size_ : Nat := 0
  deriving DecidableEq

/-- What a member function of `Vector` leaves behind: the vector itself, and the
number of element objects whose storage was released while they were alive. -/
structure Effect (α : Type) where
  self : Vector α
  leaked : Nat
  deriving DecidableEq

namespace Vector

/-- `static void Destroy(T* buf) noexcept`: `buf->~T()`. -/
def Destroy (b : Block α) (buf : Nat) : Option (Block α) :=
  match b[buf]? with
  | some (some _) => some (b.set buf none)
  | _ => none

/-- `static void DestroyN(T* buf, size_t n) noexcept`:
`for (size_t i = 0; i != n; ++i) Destroy(buf + i);` -/
def DestroyN (b : Block α) (buf : Nat) : Nat → Option (Block α)
  | 0 => some b
  | n + 1 =>
    match Destroy b buf with
    | none => none
    | some b1 => DestroyN b1 (buf + 1) n

/-- `static void CopyConstruct(T* buf, const T& elem)`: `new (buf) T(elem)`. -/
def CopyConstruct (T : ElemType α ε) (b : Block α) (buf : Nat) (elem : α) :
    Outcome ε (Block α) Unit :=
  if b.is_raw buf then
    match T.copy_ctor elem with
    | .error e => .threw (.elem e) b
    | .ok y => .ret () (b.assign buf y)
  else .ub

/-- `Vector() = default`. -/
def ctor_default : Vector α := {}

/-- `explicit Vector(size_t size)`. On an exception the member `data_` is
destroyed; the state is the number of objects leaked. -/
def ctor_size (P : Platform) (T : ElemType α ε) (size : Nat) : Outcome ε Nat (Vector α) :=
  match RawMemory.ctor_capacity P T size with
  | .error e => .threw e 0
  | .ok data =>
    match std.uninitialized_value_construct_n T data.GetAddress 0 size with
    | .ret _ b => .ret { data_ := data.put b, size_ := size } 0
    | .threw e b => .threw e (data.put b).dtor
    | .ub => .ub

/-- The loop of the copy constructor,
`for (; i != other.size_; ++i) CopyConstruct(data_ + i, other.data_[i]);`
with the number of iterations left. State: the block of `data_`, and `i`. -/
def ctor_copy_loop (T : ElemType α ε) (other : Vector α) :
    Nat → Block α → Nat → Outcome ε (Block α × Nat) Unit
  | 0, b, i => .ret () (b, i)
  | n + 1, b, i =>
    match other.data_.GetAddress.read i with
    | none => .ub
    | some x =>
      match CopyConstruct T b i x with
      | .ret _ b1 => ctor_copy_loop T other n b1 (i + 1)
      | .threw e b1 => .threw e (b1, i)
      | .ub => .ub

/-- `Vector(const Vector& other)`. On an exception the member `data_` is
destroyed; the state is the number of objects leaked. -/
def ctor_copy (P : Platform) (T : ElemType α ε) (other : Vector α) :
    Outcome ε Nat (Vector α) :=
  match RawMemory.ctor_capacity P T other.size_ with
  | .error e => .threw e 0
  | .ok data =>
    match ctor_copy_loop T other other.size_ data.GetAddress 0 with
    | .ret _ (b, _) => .ret { data_ := data.put b, size_ := other.size_ } 0
    | .threw _ (b, i) =>
      match DestroyN b 0 i with
      | none => .ub
      | some b1 => .threw (.runtime_error " ") (data.put b1).dtor
    | .ub => .ub

/-- `Vector(Vector&& other) noexcept`: the new object and `other` afterwards. -/
def ctor_move (other : Vector α) : Vector α × Vector α :=
  ({ data_ := (RawMemory.ctor_move other.data_).1, size_ := other.size_ },
   { data_ := (RawMemory.ctor_move other.data_).2, size_ := 0 })

/-- `~Vector()`: `DestroyN(data_.GetAddress(), size_)`, then `data_` is
destroyed. Result: the number of objects leaked. -/
def dtor (v : Vector α) : Option Nat :=
  match DestroyN v.data_.GetAddress 0 v.size_ with
  | none => none
  | some b => some (v.data_.put b).dtor

/-- `size_t Size() const noexcept`. -/
def Size (v : Vector α) : Nat := v.size_

/-- `size_t Capacity() const noexcept`. -/
def Capacity (v : Vector α) : Nat := v.data_.Capacity

/-- `T& operator[](size_t index) noexcept`, read: the value of the object in
slot `index` of `data_`. -/
def operator_index (v : Vector α) (index : Nat) : Option α :=
  v.data_.GetAddress.read index

/-- `iterator begin() noexcept`, as a slot index of `data_`. -/
def begin_ (_v : Vector α) : Nat := 0

/-- `iterator end() noexcept`, as a slot index of `data_`. -/
def end_ (v : Vector α) : Nat := v.size_

/-- `void Reserve(size_t new_capacity)`. The local `new_data` is destroyed when
the function is left. -/
def Reserve (P : Platform) (T : ElemType α ε) (v : Vector α) (new_capacity : Nat) :
    Outcome ε (Effect α) Unit :=
  if new_capacity ≤ v.data_.Capacity then .ret () ⟨v, 0⟩
  else
    match RawMemory.ctor_capacity P T new_capacity with
    | .error e => .threw e ⟨v, 0⟩
    | .ok new_data =>
      let transfer : Outcome ε (Block α × Block α) Unit :=
        if T.is_nothrow_move_constructible || !T.is_copy_constructible then
          std.uninitialized_move_n T v.data_.GetAddress 0 v.size_ new_data.GetAddress 0
        else
          match std.uninitialized_copy_n T v.data_.GetAddress 0 v.size_
              new_data.GetAddress 0 with
          | .ret _ nb => .ret () (v.data_.GetAddress, nb)
          | .threw e nb => .threw e (v.data_.GetAddress, nb)
          | .ub => .ub
      match transfer with
      | .ub => .ub
      | .threw e (ob, nb) =>
        .threw e ⟨{ v with data_ := v.data_.put ob }, (new_data.put nb).dtor⟩
      | .ret _ (ob, nb) =>
        match std.destroy_n ob 0 v.size_ with
        | none => .ub
        | some ob1 =>
          .ret () ⟨{ data_ := (RawMemory.Swap (v.data_.put ob1) (new_data.put nb)).1,
                     size_ := v.size_ },
                   (RawMemory.Swap (v.data_.put ob1) (new_data.put nb)).2.dtor⟩

/-- `void Resize(size_t new_size)`. -/
def Resize (P : Platform) (T : ElemType α ε) (v : Vector α) (new_size : Nat) :
    Outcome ε (Effect α) Unit :=
  if new_size > v.size_ then
    match Reserve P T v new_size with
    | .ub => .ub
    | .threw e s => .threw e s
    | .ret _ s =>
      match std.uninitialized_value_construct_n T s.self.data_.GetAddress s.self.size_
          (new_size - s.self.size_) with
      | .ub => .ub
      | .threw e b => .threw e ⟨{ s.self with data_ := s.self.data_.put b }, s.leaked⟩
      | .ret _ b => .ret () ⟨{ data_ := s.self.data_.put b, size_ := new_size }, s.leaked⟩
  else
    match DestroyN v.data_.GetAddress new_size (v.size_ - new_size) with
    | none => .ub
    | some b => .ret () ⟨{ data_ := v.data_.put b, size_ := new_size }, 0⟩

/-- `template <typename... Args> T& EmplaceBack(Args&&... args)`. The result is
the slot of `data_` the returned reference `data_[size_ - 1]` refers to. The
local `new_data` is destroyed when the function is left. -/
def EmplaceBack (P : Platform) (T : ElemType α ε) (v : Vector α) (args : Arg α) :
    Outcome ε (Effect α) Nat :=
  if v.size_ = v.data_.Capacity then
    match RawMemory.ctor_capacity P T (if v.size_ = 0 then 1 else P.wrap (v.size_ * 2)) with
    | .error e => .threw e ⟨v, 0⟩
    | .ok new_data =>
      match placement_new T new_data.GetAddress v.size_ args with
      | .ub => .ub
      | .threw e nb => .threw e ⟨v, (new_data.put nb).dtor⟩
      | .ret _ nb =>
        let transfer : Outcome ε (Block α × Block α) Unit :=
          if T.is_nothrow_move_constructible || !T.is_copy_constructible then
            std.uninitialized_move_n T v.data_.GetAddress 0 v.size_ nb 0
          else
            match std.uninitialized_copy_n T v.data_.GetAddress 0 v.size_ nb 0 with
            | .ret _ nb1 => .ret () (v.data_.GetAddress, nb1)
            | .threw e nb1 =>
              match Destroy nb1 v.size_ with
              | none => .ub
              | some nb2 => .threw e (v.data_.GetAddress, nb2)
            | .ub => .ub
        match transfer with
        | .ub => .ub
        | .threw e (ob, nb1) =>
          .threw e ⟨{ v with data_ := v.data_.put ob }, (new_data.put nb1).dtor⟩
        | .ret _ (ob, nb1) =>
          match DestroyN ob 0 v.size_ with
          | none => .ub
          | some ob1 =>
            .ret (P.sub (P.wrap (v.size_ + 1)) 1)
              ⟨{ data_ := (RawMemory.Swap (v.data_.put ob1) (new_data.put nb1)).1,
                 size_ := P.wrap (v.size_ + 1) },
               (RawMemory.Swap (v.data_.put ob1) (new_data.put nb1)).2.dtor⟩
  else
    match placement_new T v.data_.GetAddress v.size_ args with
    | .ub => .ub
    | .threw e b => .threw e ⟨{ v with data_ := v.data_.put b }, 0⟩
    | .ret _ b =>
      .ret (P.sub (P.wrap (v.size_ + 1)) 1)
        ⟨{ data_ := v.data_.put b, size_ := P.wrap (v.size_ + 1) }, 0⟩

/-- `void PushBack(const T& value)`. -/
def PushBack_copy (P : Platform) (T : ElemType α ε) (v : Vector α) (value : α) :
    Outcome ε (Effect α) Unit :=
  match EmplaceBack P T v (.lvalue value) with
  | .ret _ s => .ret () s
  | .threw e s => .threw e s
  | .ub => .ub

/-- `void PushBack(T&& value)`. -/
def PushBack_move (P : Platform) (T : ElemType α ε) (v : Vector α) (value : α) :
    Outcome ε (Effect α) Unit :=
  match EmplaceBack P T v (.rvalue value) with
  | .ret _ s => .ret () s
  | .threw e s => .threw e s
  | .ub => .ub

/-- `void PopBack()`; `none` is undefined behaviour. -/
def PopBack (v : Vector α) : Option (Vector α) :=
  if v.size_ = 0 then some v
  else
    match Destroy v.data_.GetAddress (v.size_ - 1) with
    | none => none
    | some b => some { data_ := v.data_.put b, size_ := v.size_ - 1 }

/-- `template <typename... Args> iterator Emplace(const_iterator pos, Args&&... args)`
for `pos` pointing at slot `offset` of `data_` (`offset = pos - begin()`). The
result is the slot the returned iterator `begin() + offset` points at. The locals
`tmpl` and `new_data` are destroyed when the function is left. -/
def Emplace (P : Platform) (T : ElemType α ε) (v : Vector α) (offset : Nat) (args : Arg α) :
    Outcome ε (Effect α) Nat :=
  if v.size_ ≠ v.Capacity then
    match T.construct args with
    | .error e => .threw (.elem e) ⟨v, 0⟩
    | .ok (tmpl, args1) =>
      if v.size_ ≠ 0 then
        match v.data_.GetAddress.read (v.size_ - 1), v.data_.GetAddress.is_raw v.size_ with
        | some x, true =>
          match T.move_ctor x with
          | .error e => .threw (.elem e) ⟨v, 0⟩
          | .ok (y, r) =>
            let guarded : Outcome ε (Block α) Unit :=
              match std.move_backward T
                  ((v.data_.GetAddress.assign (v.size_ - 1) r).assign v.size_ y)
                  offset (v.size_ - 1) v.size_ with
              | .ub => .ub
              | .threw e b => .threw e b
              | .ret _ b =>
                match b.read offset with
                | none => .ub
                | some d =>
                  match T.move_assign d tmpl with
                  | .error e => .threw (.elem e) b
                  | .ok (d1, _) => .ret () (b.assign offset d1)
            match guarded with
            | .ub => .ub
            | .threw e b =>
              match std.destroy_at b v.size_ with
              | none => .ub
              | some b1 => .threw e ⟨{ v with data_ := v.data_.put b1 }, 0⟩
            | .ret _ b =>
              .ret offset ⟨{ data_ := v.data_.put b, size_ := P.wrap (v.size_ + 1) }, 0⟩
        | _, _ => .ub
      else
        match placement_new T v.data_.GetAddress offset args1 with
        | .ub => .ub
        | .threw e b => .threw e ⟨{ v with data_ := v.data_.put b }, 0⟩
        | .ret _ b =>
          .ret offset ⟨{ data_ := v.data_.put b, size_ := P.wrap (v.size_ + 1) }, 0⟩
  else
    match RawMemory.ctor_capacity P T (if v.size_ = 0 then 1 else P.wrap (v.size_ * 2)) with
    | .error e => .threw e ⟨v, 0⟩
    | .ok new_data =>
      let guarded : Outcome ε (Block α × Block α) Unit :=
        match std.uninitialized_move_n T v.data_.GetAddress 0 offset new_data.GetAddress 0 with
        | .ub => .ub
        | .threw e s => .threw e s
        | .ret _ (ob, nb) =>
          match placement_new T nb offset args with
          | .ub => .ub
          | .threw e nb1 => .threw e (ob, nb1)
          | .ret _ nb1 =>
            std.uninitialized_move_n T ob offset (P.sub v.size_ offset) nb1 (offset + 1)
      match guarded with
      | .ub => .ub
      | .threw e (ob, nb) =>
        match std.destroy_n nb 0 offset with
        | none => .ub
        | some nb1 => .threw e ⟨{ v with data_ := v.data_.put ob }, (new_data.put nb1).dtor⟩
      | .ret _ (ob, nb) =>
        match std.destroy_n ob 0 v.size_ with
        | none => .ub
        | some ob1 =>
          .ret offset
            ⟨{ data_ := (RawMemory.Swap (v.data_.put ob1) (new_data.put nb)).1,
               size_ := P.wrap (v.size_ + 1) },
             (RawMemory.Swap (v.data_.put ob1) (new_data.put nb)).2.dtor⟩

/-- `iterator Insert(const_iterator pos, const T& value)`. -/
def Insert_copy (P : Platform) (T : ElemType α ε) (v : Vector α) (pos : Nat) (value : α) :
    Outcome ε (Effect α) Nat :=
  Emplace P T v pos (.lvalue value)

/-- `iterator Insert(const_iterator pos, T&& value)`. -/
def Insert_move (P : Platform) (T : ElemType α ε) (v : Vector α) (pos : Nat) (value : α) :
    Outcome ε (Effect α) Nat :=
  Emplace P T v pos (.rvalue value)

/-- `iterator Erase(const_iterator pos)` for `pos` pointing at slot `pos` of
`data_`. The result is the slot the returned iterator points at. -/
def Erase (T : ElemType α ε) (v : Vector α) (pos : Nat) : Outcome ε (Vector α) Nat :=
  match std.move T v.data_.GetAddress (pos + 1) v.end_ pos with
  | .ub => .ub
  | .threw e b => .threw e { v with data_ := v.data_.put b }
  | .ret _ b =>
    match PopBack { v with data_ := v.data_.put b } with
    | none => .ub
    | some v1 => .ret pos v1

/-- `void Swap(Vector& other) noexcept`: both objects afterwards. -/
def Swap (self other : Vector α) : Vector α × Vector α :=
  ({ data_ := (RawMemory.Swap self.data_ other.data_).1, size_ := other.size_ },
   { data_ := (RawMemory.Swap self.data_ other.data_).2, size_ := self.size_ })

/-- `Vector& operator=(Vector&& rhs) noexcept`. The argument is `none` when
`rhs` is the object itself (`this == &rhs`). Result: both objects afterwards. -/
def assign_move (self : Vector α) (rhs : Option (Vector α)) : Vector α × Option (Vector α) :=
  match rhs with
  | none => (self, none)
  | some r => ((Swap self r).1, some (Swap self r).2)

/-- `Vector& operator=(const Vector& rhs)`. The argument is `none` when `rhs` is
the object itself (`this == &rhs`). The local `temp` is destroyed when the
function is left. -/
def assign_copy (P : Platform) (T : ElemType α ε) (self : Vector α) (rhs : Option (Vector α)) :
    Outcome ε (Effect α) Unit :=
  match rhs with
  | none => .ret () ⟨self, 0⟩
  | some rhs =>
    if rhs.size_ ≤ self.data_.Capacity then
      match std.copy_n T rhs.data_.GetAddress 0 (min self.size_ rhs.size_)
          self.data_.GetAddress 0 with
      | .ub => .ub
      | .threw e b => .threw e ⟨{ self with data_ := self.data_.put b }, 0⟩
      | .ret _ b =>
        let adapted : Outcome ε (Block α) Unit :=
          if rhs.size_ > self.size_ then
            std.uninitialized_copy_n T rhs.data_.GetAddress self.size_
              (rhs.size_ - self.size_) b self.size_
          else if rhs.size_ < self.size_ then
            match std.destroy_n b rhs.size_ (self.size_ - rhs.size_) with
            | none => .ub
            | some b1 => .ret () b1
          else .ret () b
        match adapted with
        | .ub => .ub
        | .threw e b1 => .threw e ⟨{ self with data_ := self.data_.put b1 }, 0⟩
        | .ret _ b1 => .ret () ⟨{ data_ := self.data_.put b1, size_ := rhs.size_ }, 0⟩
    else
      match ctor_copy P T rhs with
      | .ub => .ub
      | .threw e leaked => .threw e ⟨self, leaked⟩
      | .ret temp leaked =>
        match (Swap self temp).2.dtor with
        | none => .ub
        | some l => .ret () ⟨(Swap self temp).1, leaked + l⟩

end Vector

/-! ## Vocabulary of the specification -/

/-- An element type none of whose operations fails, and whose copies and moves
carry the value over: a copy or a move produces an object equal to its source,
a copy leaves the source alone, a move may leave anything in the source. -/
structure ElemType.NoFail (T : ElemType α ε) : Prop where
  sizeof_pos : 0 < T.sizeof
  value_ctor : ∃ d, T.value_ctor = .ok d
  copy_ctor : ∀ x, T.copy_ctor x = .ok x
  move_ctor : ∀ x, ∃ r, T.move_ctor x = .ok (x, r)
  copy_assign : ∀ d x, T.copy_assign d x = .ok x
  move_assign : ∀ d x, ∃ r, T.move_assign d x = .ok (x, r)

/-- The value of the object an argument refers to. -/
def Arg.value : Arg α → α
  | .lvalue x => x
  | .rvalue x => x

/-- Storage for `cap` objects whose first slots hold live objects with the
values `xs`, the others being raw. -/
def Block.of (xs : List α) (cap : Nat) : Block α :=
  xs.map some ++ List.replicate (cap - xs.length) none

/-- The array `v` has the contents `xs` and the capacity `cap`: `size_` is the
length of `xs`, `capacity_` is `cap`, the buffer is null exactly when `cap` is 0
and otherwise points to `cap` slots that begin with the objects `xs`, followed by
raw storage. -/
def Vector.Holds (v : Vector α) (xs : List α) (cap : Nat) : Prop :=
  xs.length ≤ cap ∧ v.size_ = xs.length ∧ v.data_.capacity_ = cap ∧
    v.data_.buffer_ = if cap = 0 then none else some (Block.of xs cap)

/-- The calls `EmplaceBack(a1); ...; EmplaceBack(an);` one after the other. -/
def Vector.appends (P : Platform) (T : ElemType α ε) :
    Vector α → List (Arg α) → Outcome ε (Vector α) Unit
  | v, [] => .ret () v
  | v, a :: rest =>
    match Vector.EmplaceBack P T v a with
    | .ret _ s => Vector.appends P T s.self rest
    | .threw e s => .threw e s.self
    | .ub => .ub

/-- Every way the code can leave, by a normal return or by an exception, meets
the given condition on the result or the exception and on the state left. -/
def Outcome.Sat {σ ρ : Type} (o : Outcome ε σ ρ) (on_ret : ρ → σ → Prop)
    (on_threw : Exception ε → σ → Prop) : Prop :=
  match o with
  | .ret r s => on_ret r s
  | .threw e s => on_threw e s
  | .ub => True

/-- The invariant of the class: `size_` does not exceed `Capacity()`. -/
def Vector.Inv (v : Vector α) : Prop := v.Size ≤ v.Capacity

instance Vector.Inv.decidable (v : Vector α) : Decidable v.Inv :=
  inferInstanceAs (Decidable (v.Size ≤ v.Capacity))

/-! ## Concrete platforms, element types and arrays -/

/-- A machine with a 64-bit size_t whose allocator grants every request of at
most 4096 bytes. -/
def Platform.lp64 : Platform :=
  { word_bits := 64, operator_new := fun bytes => decide (bytes ≤ 4096) }

/-- The element type int: four bytes, nothing throws, a move is a copy. -/
def int_elem : ElemType Int Unit :=
  { sizeof := 4
    is_nothrow_move_constructible := true
    is_copy_constructible := true
    value_ctor := .ok 0
    copy_ctor := fun x => .ok x
    move_ctor := fun x => .ok (x, x)
    copy_assign := fun _ x => .ok x
    move_assign := fun _ x => .ok (x, x) }

/-- An element type like std::string: nothing throws, a move leaves the source
empty. -/
def string_elem : ElemType String Unit :=
  { sizeof := 32
    is_nothrow_move_constructible := true
    is_copy_constructible := true
    value_ctor := .ok ""
    copy_ctor := fun x => .ok x
    move_ctor := fun x => .ok (x, "")
    copy_assign := fun _ x => .ok x
    move_assign := fun _ x => .ok (x, "") }

/-- The array of ints [1, 2] with capacity 2. -/
def ints_full : Vector Int :=
  { data_ := { buffer_ := some [some 1, some 2], capacity_ := 2 }, size_ := 2 }

/-- The array of ints [1, 2, 3] with capacity 4. -/
def ints_spare : Vector Int :=
  { data_ := { buffer_ := some [some 1, some 2, some 3, none], capacity_ := 4 }, size_ := 3 }

/-- The array of ints [1] with capacity 2. -/
def ints_one : Vector Int :=
  { data_ := { buffer_ := some [some 1, none], capacity_ := 2 }, size_ := 1 }

/-- The empty array of strings with capacity 2. -/
def strings_reserved : Vector String :=
  { data_ := { buffer_ := some [none, none], capacity_ := 2 }, size_ := 0 }

/-- An element type over the natural numbers that can be copied and whose moves
may throw: copying or moving the value 13 throws, a move leaves 0 in its source,
value-initialisation gives 0. -/
def fragile_elem : ElemType Nat String :=
  { sizeof := 8
    is_nothrow_move_constructible := false
    is_copy_constructible := true
    value_ctor := .ok 0
    copy_ctor := fun x => if x = 13 then .error "copy of 13" else .ok x
    move_ctor := fun x => if x = 13 then .error "move of 13" else .ok (x, 0)
    copy_assign := fun _ x => if x = 13 then .error "copy of 13" else .ok x
    move_assign := fun _ x => if x = 13 then .error "move of 13" else .ok (x, 0) }

/-- An array of `fragile_elem` with the given contents, full: capacity = size. -/
def fragile_full (xs : List Nat) : Vector Nat :=
  { data_ := { buffer_ := some (xs.map some), capacity_ := xs.length }, size_ := xs.length }

theorem get?_mid {β : Type} (A B : List β) (x : β) (i : Nat) (h : i = A.length) :
    (A ++ x :: B)[i]? = some x := by
  subst h
  induction A with
  | nil => simp
  | cons a A ih => simpa using ih

theorem set_mid {β : Type} (A B : List β) (x y : β) (i : Nat) (h : i = A.length) :
    (A ++ x :: B).set i y = A ++ y :: B := by
  subst h
  simp

theorem Block.read_mid (A B : Block α) (x : α) (i : Nat) (h : i = A.length) :
    Block.read (A ++ some x :: B) i = some x := by
  simp [Block.read, get?_mid A B (some x) i h]

theorem Block.is_raw_mid (A B : Block α) (i : Nat) (h : i = A.length) :
    Block.is_raw (A ++ none :: B) i = true := by
  simp [Block.is_raw, get?_mid A B none i h]

theorem Block.assign_mid (A B : Block α) (s : Option α) (x : α) (i : Nat)
    (h : i = A.length) : Block.assign (A ++ s :: B) i x = A ++ some x :: B := by
  simp [Block.assign, set_mid A B s (some x) i h]

theorem std.destroy_at_mid (A B : Block α) (x : α) (i : Nat) (h : i = A.length) :
    std.destroy_at (A ++ some x :: B) i = some (A ++ none :: B) := by
  simp [std.destroy_at, get?_mid A B (some x) i h, set_mid A B (some x) none i h]

theorem Vector.Destroy_mid (A B : Block α) (x : α) (i : Nat) (h : i = A.length) :
    Vector.Destroy (A ++ some x :: B) i = some (A ++ none :: B) := by
  simp [Vector.Destroy, get?_mid A B (some x) i h, set_mid A B (some x) none i h]

/-- Destroying `n` live objects in a row leaves `n` raw slots. -/
theorem std.destroy_n_live (ys : List α) :
    ∀ (A B : Block α) (first : Nat), first = A.length →
      std.destroy_n (A ++ ys.map some ++ B) first ys.length
        = some (A ++ List.replicate ys.length none ++ B) := by
  induction ys with
  | nil => intro A B first _; simp [std.destroy_n]
  | cons y ys ih =>
    intro A B first h
    have h1 : A ++ List.map some (y :: ys) ++ B = A ++ some y :: (ys.map some ++ B) := by simp
    rw [h1, List.length_cons, std.destroy_n, std.destroy_at_mid A _ y first h]
    have h2 : A ++ none :: (ys.map some ++ B) = (A ++ [none]) ++ ys.map some ++ B := by simp
    rw [h2]
    simp only []
    rw [ih (A ++ [none]) B (first + 1) (by simp [h])]
    simp [List.replicate_succ]

theorem Vector.DestroyN_live (ys : List α) :
    ∀ (A B : Block α) (first : Nat), first = A.length →
      Vector.DestroyN (A ++ ys.map some ++ B) first ys.length
        = some (A ++ List.replicate ys.length none ++ B) := by
  induction ys with
  | nil => intro A B first _; simp [Vector.DestroyN]
  | cons y ys ih =>
    intro A B first h
    have h1 : A ++ List.map some (y :: ys) ++ B = A ++ some y :: (ys.map some ++ B) := by simp
    rw [h1, List.length_cons, Vector.DestroyN, Vector.Destroy_mid A _ y first h]
    have h2 : A ++ none :: (ys.map some ++ B) = (A ++ [none]) ++ ys.map some ++ B := by simp
    rw [h2]
    simp only []
    rw [ih (A ++ [none]) B (first + 1) (by simp [h])]
    simp [List.replicate_succ]

/-! ## The algorithms on blocks whose element operations do not fail -/

variable {T : ElemType α ε}

theorem std.uninitialized_copy_loop_ok (hT : T.NoFail) (ys : List α) :
    ∀ (A0 B0 A B : Block α) (first cur : Nat), first = A0.length → cur = A.length →
      std.uninitialized_copy_loop T (A0 ++ ys.map some ++ B0) first ys.length
          (A ++ List.replicate ys.length none ++ B) cur
        = .ret () (A ++ ys.map some ++ B, cur + ys.length) := by
  induction ys with
  | nil => intro A0 B0 A B first cur _ _; simp [std.uninitialized_copy_loop]
  | cons y ys ih =>
    intro A0 B0 A B first cur h1 h2
    have e1 : A0 ++ List.map some (y :: ys) ++ B0 = A0 ++ some y :: (ys.map some ++ B0) := by
      simp
    have e2 : A ++ List.replicate (y :: ys).length none ++ B
        = A ++ none :: (List.replicate ys.length none ++ B) := by
      simp [List.replicate_succ]
    rw [List.length_cons, std.uninitialized_copy_loop, ← List.length_cons, e1, e2,
      Block.read_mid A0 _ y first h1, Block.is_raw_mid A _ cur h2]
    simp only [hT.copy_ctor, Block.assign_mid A _ none y cur h2]
    have e3 : A0 ++ some y :: (ys.map some ++ B0) = (A0 ++ [some y]) ++ ys.map some ++ B0 := by
      simp
    have e4 : A ++ some y :: (List.replicate ys.length none ++ B)
        = (A ++ [some y]) ++ List.replicate ys.length none ++ B := by simp
    rw [e3, e4, ih (A0 ++ [some y]) B0 (A ++ [some y]) B (first + 1) (cur + 1)
      (by simp [h1]) (by simp [h2])]
    simp [Nat.add_assoc, Nat.add_comm 1]

theorem std.uninitialized_copy_n_ok (hT : T.NoFail) (ys : List α)
    (A0 B0 A B : Block α) (first cur : Nat) (h1 : first = A0.length) (h2 : cur = A.length) :
    std.uninitialized_copy_n T (A0 ++ ys.map some ++ B0) first ys.length
        (A ++ List.replicate ys.length none ++ B) cur
      = .ret () (A ++ ys.map some ++ B) := by
  rw [std.uninitialized_copy_n, std.uninitialized_copy_loop_ok hT ys A0 B0 A B first cur h1 h2]

theorem std.uninitialized_move_loop_ok (hT : T.NoFail) (ys : List α) :
    ∀ (A0 B0 A B : Block α) (first cur : Nat), first = A0.length → cur = A.length →
      ∃ rs : List α, rs.length = ys.length ∧
        std.uninitialized_move_loop T first ys.length (A0 ++ ys.map some ++ B0)
            (A ++ List.replicate ys.length none ++ B) cur
          = .ret () (A0 ++ rs.map some ++ B0, A ++ ys.map some ++ B, cur + ys.length) := by
  induction ys with
  | nil =>
    intro A0 B0 A B first cur _ _
    exact ⟨[], rfl, by simp [std.uninitialized_move_loop]⟩
  | cons y ys ih =>
    intro A0 B0 A B first cur h1 h2
    obtain ⟨r, hr⟩ := hT.move_ctor y
    obtain ⟨rs, hlen, hrs⟩ := ih (A0 ++ [some r]) B0 (A ++ [some y]) B (first + 1) (cur + 1)
      (by simp [h1]) (by simp [h2])
    refine ⟨r :: rs, by simp [hlen], ?_⟩
    have e1 : A0 ++ List.map some (y :: ys) ++ B0 = A0 ++ some y :: (ys.map some ++ B0) := by
      simp
    have e2 : A ++ List.replicate (y :: ys).length none ++ B
        = A ++ none :: (List.replicate ys.length none ++ B) := by
      simp [List.replicate_succ]
    rw [List.length_cons, std.uninitialized_move_loop, ← List.length_cons, e1, e2,
      Block.read_mid A0 _ y first h1, Block.is_raw_mid A _ cur h2]
    simp only [hr, Block.assign_mid A _ none y cur h2, Block.assign_mid A0 _ (some y) r first h1]
    have e3 : A0 ++ some r :: (ys.map some ++ B0) = (A0 ++ [some r]) ++ ys.map some ++ B0 := by
      simp
    have e4 : A ++ some y :: (List.replicate ys.length none ++ B)
        = (A ++ [some y]) ++ List.replicate ys.length none ++ B := by simp
    rw [e3, e4, hrs]
    simp [Nat.add_assoc, Nat.add_comm 1]

theorem std.uninitialized_move_n_ok (hT : T.NoFail) (ys : List α)
    (A0 B0 A B : Block α) (first cur : Nat) (h1 : first = A0.length) (h2 : cur = A.length) :
    ∃ rs : List α, rs.length = ys.length ∧
      std.uninitialized_move_n T (A0 ++ ys.map some ++ B0) first ys.length
          (A ++ List.replicate ys.length none ++ B) cur
        = .ret () (A0 ++ rs.map some ++ B0, A ++ ys.map some ++ B) := by
  obtain ⟨rs, hlen, hrs⟩ := std.uninitialized_move_loop_ok hT ys A0 B0 A B first cur h1 h2
  exact ⟨rs, hlen, by rw [std.uninitialized_move_n, hrs]⟩

theorem std.move_loop_ok (hT : T.NoFail) (ys : List α) :
    ∀ (A B : Block α) (z : α) (first d_first : Nat), d_first = A.length →
      first = A.length + 1 →
      ∃ r : α, std.move_loop T ys.length (A ++ some z :: (ys.map some ++ B)) first d_first
        = .ret () (A ++ ys.map some ++ some r :: B) := by
  induction ys with
  | nil => intro A B z first d_first _ _; exact ⟨z, by simp [std.move_loop]⟩
  | cons y ys ih =>
    intro A B z first d_first h1 h2
    obtain ⟨r1, hr1⟩ := hT.move_assign z y
    obtain ⟨r, hr⟩ := ih (A ++ [some y]) B r1 (first + 1) (d_first + 1) (by simp [h1])
      (by simp [h2])
    refine ⟨r, ?_⟩
    have e1 : A ++ some z :: (List.map some (y :: ys) ++ B)
        = (A ++ [some z]) ++ some y :: (ys.map some ++ B) := by simp
    have e2 : (A ++ [some z]) ++ some r1 :: (ys.map some ++ B)
        = A ++ some z :: (some r1 :: (ys.map some ++ B)) := by simp
    have hX1 : Block.read ((A ++ [some z]) ++ some y :: (ys.map some ++ B)) first = some y :=
      Block.read_mid (A ++ [some z]) _ y first (by simp [h2])
    have hX2 : Block.read ((A ++ [some z]) ++ some y :: (ys.map some ++ B)) d_first
        = some z := by
      have e : (A ++ [some z]) ++ some y :: (ys.map some ++ B)
          = A ++ some z :: (some y :: (ys.map some ++ B)) := by simp
      rw [e]
      exact Block.read_mid A _ z d_first h1
    rw [List.length_cons, std.move_loop, e1, hX1, hX2]
    simp only [hr1]
    rw [Block.assign_mid (A ++ [some z]) _ (some y) r1 first (by simp [h2]), e2,
      Block.assign_mid A _ (some z) y d_first h1]
    have e3 : A ++ some y :: some r1 :: (ys.map some ++ B)
        = (A ++ [some y]) ++ some r1 :: (ys.map some ++ B) := by simp
    rw [e3, hr]
    simp

theorem std.move_ok (hT : T.NoFail) (ys : List α) (A B : Block α) (z : α)
    (first last d_first : Nat) (h1 : d_first = A.length) (h2 : first = A.length + 1)
    (h3 : last = A.length + 1 + ys.length) :
    ∃ r : α, std.move T (A ++ some z :: (ys.map some ++ B)) first last d_first
      = .ret () (A ++ ys.map some ++ some r :: B) := by
  obtain ⟨r, hr⟩ := std.move_loop_ok hT ys A B z first d_first h1 h2
  refine ⟨r, ?_⟩
  have hle : first ≤ last := by omega
  have hn : last - first = ys.length := by omega
  rw [std.move, if_pos hle, hn, hr]

theorem std.move_backward_loop_ok (hT : T.NoFail) (ys : List α) :
    ∀ (A B : Block α) (z : α) (last d_last : Nat), last = A.length + ys.length →
      d_last = A.length + ys.length + 1 →
      ∃ r : α, std.move_backward_loop T ys.length (A ++ ys.map some ++ some z :: B) last d_last
        = .ret () (A ++ some r :: (ys.map some ++ B)) := by
  induction ys using List.reverseRecOn with
  | nil => intro A B z last d_last _ _; exact ⟨z, by simp [std.move_backward_loop]⟩
  | append_singleton ys y ih =>
    intro A B z last d_last h1 h2
    obtain ⟨r1, hr1⟩ := hT.move_assign z y
    obtain ⟨r, hr⟩ := ih A (some y :: B) r1 (last - 1) (d_last - 1)
      (by simp at h1; omega) (by simp at h2; omega)
    refine ⟨r, ?_⟩
    have hl : (ys ++ [y]).length = ys.length + 1 := by simp
    have hne : ¬ (last = 0 ∨ d_last = 0) := by simp at h1 h2; omega
    have e1 : A ++ List.map some (ys ++ [y]) ++ some z :: B
        = (A ++ ys.map some) ++ some y :: (some z :: B) := by simp
    have e2 : (A ++ ys.map some) ++ some r1 :: (some z :: B)
        = (A ++ ys.map some ++ [some r1]) ++ some z :: B := by simp
    have hX1 : Block.read ((A ++ ys.map some) ++ some y :: (some z :: B)) (last - 1)
        = some y :=
      Block.read_mid (A ++ ys.map some) _ y (last - 1) (by simp at h1 ⊢; omega)
    have hX2 : Block.read ((A ++ ys.map some) ++ some y :: (some z :: B)) (d_last - 1)
        = some z := by
      have e : (A ++ ys.map some) ++ some y :: (some z :: B)
          = (A ++ ys.map some ++ [some y]) ++ some z :: B := by simp
      rw [e]
      exact Block.read_mid (A ++ ys.map some ++ [some y]) _ z (d_last - 1)
        (by simp at h2 ⊢; omega)
    rw [hl, std.move_backward_loop, if_neg hne, e1, hX1, hX2]
    simp only [hr1]
    rw [Block.assign_mid (A ++ ys.map some) _ (some y) r1 (last - 1) (by simp at h1 ⊢; omega),
      e2, Block.assign_mid (A ++ ys.map some ++ [some r1]) _ (some z) y (d_last - 1)
        (by simp at h2 ⊢; omega)]
    have e3 : (A ++ ys.map some ++ [some r1]) ++ some y :: B
        = A ++ ys.map some ++ some r1 :: (some y :: B) := by simp
    rw [e3, hr]
    simp

theorem std.move_backward_ok (hT : T.NoFail) (ys : List α) (A B : Block α) (z : α)
    (first last d_last : Nat) (h0 : first = A.length) (h1 : last = A.length + ys.length)
    (h2 : d_last = A.length + ys.length + 1) :
    ∃ r : α, std.move_backward T (A ++ ys.map some ++ some z :: B) first last d_last
      = .ret () (A ++ some r :: (ys.map some ++ B)) := by
  obtain ⟨r, hr⟩ := std.move_backward_loop_ok hT ys A B z last d_last h1 h2
  refine ⟨r, ?_⟩
  have hle : first ≤ last := by omega
  have hn : last - first = ys.length := by omega
  rw [std.move_backward, if_pos hle, hn, hr]

theorem Platform.wrap_of_lt (P : Platform) (n : Nat) (h : n < 2 ^ P.word_bits) :
    P.wrap n = n := Nat.mod_eq_of_lt h

theorem Platform.sub_of_le (P : Platform) (a b : Nat) (hb : b ≤ a) (ha : a < 2 ^ P.word_bits) :
    P.sub a b = a - b := by
  unfold Platform.sub Platform.wrap
  have e : a + 2 ^ P.word_bits - b = (a - b) + 2 ^ P.word_bits := by omega
  rw [e, Nat.add_mod_right]
  exact Nat.mod_eq_of_lt (by omega)

theorem ElemType.NoFail.construct (hT : T.NoFail) (a : Arg α) :
    ∃ a1, T.construct a = .ok (a.value, a1) := by
  cases a with
  | lvalue x => exact ⟨.lvalue x, by simp [ElemType.construct, hT.copy_ctor, Arg.value]⟩
  | rvalue x =>
    obtain ⟨r, hr⟩ := hT.move_ctor x
    exact ⟨.rvalue r, by simp [ElemType.construct, hr, Arg.value]⟩

theorem placement_new_ok (hT : T.NoFail) (A B : Block α) (i : Nat) (a : Arg α)
    (h : i = A.length) :
    ∃ a1, placement_new T (A ++ none :: B) i a = .ret a1 (A ++ some a.value :: B) := by
  obtain ⟨a1, ha1⟩ := hT.construct a
  refine ⟨a1, ?_⟩
  simp only [placement_new, Block.is_raw_mid A B i h, ha1, Block.assign_mid A B none a.value i h,
    if_true]

theorem RawMemory.ctor_capacity_ok (P : Platform) (hT : T.NoFail) (c : Nat) (hc : c ≠ 0)
    (hfit : c * T.sizeof < 2 ^ P.word_bits) (hnew : P.operator_new (c * T.sizeof) = true) :
    RawMemory.ctor_capacity P T c
      = (.ok { buffer_ := some (List.replicate c none), capacity_ := c } :
          Except (Exception ε) (RawMemory α)) := by
  have hs := hT.sizeof_pos
  simp only [RawMemory.ctor_capacity, RawMemory.Allocate, P.wrap_of_lt _ hfit, hnew,
    Nat.mul_div_cancel c hs]
  simp [hc]

theorem Block.of_spare (xs : List α) (cap : Nat) (h : xs.length < cap) :
    Block.of xs cap = xs.map some ++ none :: List.replicate (cap - xs.length - 1) none := by
  unfold Block.of
  have e : cap - xs.length = (cap - xs.length - 1) + 1 := by omega
  rw [e, List.replicate_succ]
  simp

theorem Block.of_full (xs : List α) : Block.of xs xs.length = xs.map some := by
  simp [Block.of]

theorem Block.of_concat (xs : List α) (x : α) (cap : Nat) :
    Block.of (xs ++ [x]) cap
      = xs.map some ++ some x :: List.replicate (cap - xs.length - 1) none := by
  simp [Block.of, Nat.sub_add_eq]

theorem Block.live_replicate_none (n : Nat) :
    Block.live (List.replicate n (none : Option α)) = 0 := by
  induction n with
  | zero => rfl
  | succ n ih => simp [Block.live, List.replicate_succ]

theorem Vector.Holds.eq (v : Vector α) (xs : List α) (cap : Nat) (h : v.Holds xs cap) :
    v = { data_ := { buffer_ := if cap = 0 then none else some (Block.of xs cap),
                     capacity_ := cap },
          size_ := xs.length } := by
  obtain ⟨⟨buf, c⟩, n⟩ := v
  obtain ⟨_, h2, h3, h4⟩ := h
  simp only at h2 h3 h4
  subst h2 h3 h4
  rfl

theorem Block.getD_of (xs : List α) (cap : Nat) (h : xs.length ≤ cap) :
    Option.getD (if cap = 0 then none else some (Block.of xs cap)) [] = Block.of xs cap := by
  by_cases hc : cap = 0
  · subst hc
    have : xs = [] := List.length_eq_zero.mp (by omega)
    subst this
    simp [Block.of]
  · simp [hc]

theorem RawMemory.dtor_raw (buf : Option (Block α)) (cap n : Nat) :
    RawMemory.dtor
        { buffer_ := Option.map (fun _ => List.replicate n (none : Option α)) buf,
          capacity_ := cap } = 0 := by
  cases buf with
  | none => simp [RawMemory.dtor, RawMemory.Deallocate]
  | some b => simp [RawMemory.dtor, RawMemory.Deallocate, Block.live_replicate_none]

theorem Vector.EmplaceBack_ok (P : Platform) (hT : T.NoFail) (v : Vector α) (xs : List α)
    (cap : Nat) (a : Arg α) (hv : v.Holds xs cap) (hcap : cap < 2 ^ P.word_bits)
    (hroom : xs.length = cap →
      max 1 (2 * cap) * T.sizeof < 2 ^ P.word_bits ∧
        P.operator_new (max 1 (2 * cap) * T.sizeof) = true) :
    ∃ v1, Vector.EmplaceBack P T v a = .ret xs.length ⟨v1, 0⟩ ∧
      v1.Holds (xs ++ [a.value]) (if xs.length = cap then max 1 (2 * cap) else cap) := by
  have hle := hv.1
  have hv1 := Vector.Holds.eq v xs cap hv
  subst hv1
  have hsz : P.wrap (xs.length + 1) = xs.length + 1 := by
    apply P.wrap_of_lt
    by_cases hfull : xs.length = cap
    · have h1 := (hroom hfull).1
      have h2 := hT.sizeof_pos
      have h3 : max 1 (2 * cap) ≤ max 1 (2 * cap) * T.sizeof := Nat.le_mul_of_pos_right _ h2
      have h4 : cap + 1 ≤ max 1 (2 * cap) := by omega
      omega
    · omega
  have hsub : P.sub (xs.length + 1) 1 = xs.length :=
    (P.sub_of_le _ 1 (by omega) (by rw [← hsz]; exact Nat.mod_lt _ (by positivity))).trans
      (by omega)
  by_cases hfull : xs.length = cap
  · rw [if_pos hfull]
    subst hfull
    obtain ⟨hfit, hnew⟩ := hroom rfl
    have hs := hT.sizeof_pos
    have hc0 : max 1 (2 * xs.length) ≠ 0 := by omega
    have hlt : max 1 (2 * xs.length) < 2 ^ P.word_bits :=
      lt_of_le_of_lt (Nat.le_mul_of_pos_right _ hs) hfit
    have hnc : (if xs.length = 0 then 1 else P.wrap (xs.length * 2)) = max 1 (2 * xs.length) := by
      by_cases h0 : xs.length = 0
      · simp [h0]
      · rw [if_neg h0, P.wrap_of_lt _ (by omega)]
        omega
    have hrep : List.replicate (max 1 (2 * xs.length)) (none : Option α)
        = List.replicate xs.length none
          ++ none :: List.replicate (max 1 (2 * xs.length) - xs.length - 1) none := by
      rw [← List.replicate_succ, ← List.replicate_add]
      congr 1
      omega
    obtain ⟨a1, ha1⟩ := placement_new_ok hT (List.replicate xs.length none)
      (List.replicate (max 1 (2 * xs.length) - xs.length - 1) none) xs.length a (by simp)
    have hold := Block.getD_of xs xs.length (le_refl _)
    rw [Block.of_full xs] at hold
    have hD : ∀ rs : List α, rs.length = xs.length →
        Vector.DestroyN (rs.map some) 0 xs.length = some (List.replicate xs.length none) := by
      intro rs hrs
      have := Vector.DestroyN_live rs [] [] 0 rfl
      simpa [hrs] using this
    refine ⟨{ data_ := { buffer_ := some (Block.of (xs ++ [a.value]) (max 1 (2 * xs.length))),
                         capacity_ := max 1 (2 * xs.length) },
              size_ := xs.length + 1 }, ?_, ?_⟩
    · simp only [Vector.EmplaceBack, RawMemory.Capacity, if_true, hnc,
        RawMemory.ctor_capacity_ok P hT _ hc0 hfit hnew]
      simp only [RawMemory.GetAddress, Option.getD_some]
      rw [hrep, ha1]
      simp only []
      cases hflag : (T.is_nothrow_move_constructible || !T.is_copy_constructible)
      · have hcp := std.uninitialized_copy_n_ok hT xs [] [] []
          (some a.value :: List.replicate (max 1 (2 * xs.length) - xs.length - 1) none) 0 0
          rfl rfl
        simp only [List.nil_append, List.append_nil] at hcp
        simp only [hold, Block.of_full xs, hcp, hD xs rfl, Bool.false_eq_true, if_false]
        simp only [RawMemory.Swap, RawMemory.put, hsz, hsub, Option.map_some',
          Block.of_concat, RawMemory.dtor_raw]
      · obtain ⟨rs, hrs, hmv⟩ := std.uninitialized_move_n_ok hT xs [] [] []
          (some a.value :: List.replicate (max 1 (2 * xs.length) - xs.length - 1) none) 0 0
          rfl rfl
        simp only [List.nil_append, List.append_nil] at hmv
        simp only [hold, Block.of_full xs, hmv, hD rs hrs, if_true]
        simp only [RawMemory.Swap, RawMemory.put, hsz, hsub, Option.map_some',
          Block.of_concat, RawMemory.dtor_raw]
    · refine ⟨by rw [List.length_append, List.length_singleton]; omega, by simp, rfl, ?_⟩
      simp
  · rw [if_neg hfull]
    have hlt : xs.length < cap := by omega
    have hc0 : cap ≠ 0 := by omega
    obtain ⟨a1, ha1⟩ := placement_new_ok hT (xs.map some)
      (List.replicate (cap - xs.length - 1) none) xs.length a (by simp)
    refine ⟨{ data_ := { buffer_ := some (Block.of (xs ++ [a.value]) cap), capacity_ := cap },
              size_ := xs.length + 1 }, ?_, ?_⟩
    · simp only [Vector.EmplaceBack, RawMemory.Capacity, RawMemory.GetAddress, if_neg hfull,
        if_neg hc0, Option.getD_some, Block.of_spare xs cap hlt, ha1, hsz, hsub,
        RawMemory.put, Option.map_some', Block.of_concat]
    · refine ⟨by simp; omega, by simp, rfl, ?_⟩
      simp [hc0]

theorem Block.read_of (xs : List α) (cap i : Nat) : Block.read (Block.of xs cap) i = xs[i]? := by
  unfold Block.read Block.of
  by_cases h : i < xs.length
  · rw [List.getElem?_append_left (by simpa using h)]
    simp [List.getElem?_eq_getElem h]
  · have h1 : xs.length ≤ i := by omega
    rw [List.getElem?_append_right (by simpa using h1), List.getElem?_eq_none h1]
    by_cases h2 : i - (List.map some xs).length < cap - xs.length
    · simp [List.getElem?_replicate, h2]
    · simp [List.getElem?_replicate, h2]

theorem Vector.Holds.index (v : Vector α) (xs : List α) (cap : Nat) (h : v.Holds xs cap)
    (i : Nat) : v.operator_index i = xs[i]? := by
  have hv := Vector.Holds.eq v xs cap h
  subst hv
  simp only [Vector.operator_index, RawMemory.GetAddress, Block.getD_of xs cap h.1,
    Block.read_of]

theorem Vector.Holds.default : (Vector.ctor_default : Vector α).Holds [] 0 := by
  refine ⟨by simp, rfl, rfl, ?_⟩
  simp [Vector.ctor_default]

theorem Block.assign_length (b : Block α) (i : Nat) (x : α) :
    (b.assign i x).length = b.length := by
  simp [Block.assign]

theorem Block.is_raw_lt (b : Block α) (i : Nat) (h : b.is_raw i = true) : i < b.length := by
  unfold Block.is_raw at h
  by_contra hn
  rw [List.getElem?_eq_none (by omega)] at h
  simp at h

theorem placement_new_ret (b b1 : Block α) (i : Nat) (a a1 : Arg α)
    (h : placement_new T b i a = .ret a1 b1) : i < b.length ∧ b1.length = b.length := by
  unfold placement_new at h
  by_cases hr : b.is_raw i = true
  · rw [if_pos hr] at h
    cases hc : T.construct a with
    | error e => rw [hc] at h; simp at h
    | ok p =>
      obtain ⟨x, a2⟩ := p
      rw [hc] at h
      simp only [Outcome.ret.injEq] at h
      rw [← h.2]
      exact ⟨Block.is_raw_lt b i hr, Block.assign_length b i x⟩
  · rw [if_neg hr] at h
    simp at h

theorem RawMemory.ctor_capacity_ret (P : Platform) (T : ElemType α ε) (c : Nat)
    (m : RawMemory α) (h : RawMemory.ctor_capacity P T c = .ok m) :
    m.capacity_ = c ∧ m.GetAddress.length ≤ c ∧ m.buffer_.isSome = decide (c ≠ 0) := by
  unfold RawMemory.ctor_capacity RawMemory.Allocate at h
  by_cases hc : c ≠ 0
  · rw [if_pos hc] at h
    by_cases hn : P.operator_new (P.wrap (c * T.sizeof)) = true
    · rw [if_pos hn] at h
      simp only [Except.ok.injEq] at h
      subst h
      refine ⟨rfl, ?_, by simp [hc]⟩
      simp only [RawMemory.GetAddress, Option.getD_some, List.length_replicate]
      by_cases hs : T.sizeof = 0
      · simp [hs]
      · calc P.wrap (c * T.sizeof) / T.sizeof ≤ c * T.sizeof / T.sizeof :=
              Nat.div_le_div_right (Nat.mod_le _ _)
          _ = c := Nat.mul_div_cancel c (by omega)
    · rw [if_neg hn] at h
      simp at h
  · rw [if_neg hc] at h
    simp only [Except.ok.injEq] at h
    subst h
    simp at hc
    simp [RawMemory.GetAddress, hc]

theorem std.uninitialized_move_loop_ret :
    ∀ (n first : Nat) (src dst : Block α) (cur : Nat) (s : Block α × Block α × Nat),
      std.uninitialized_move_loop T first n src dst cur = .ret () s →
      s.2.1.length = dst.length ∧ s.1.length = src.length ∧ (n ≠ 0 → cur + n ≤ dst.length) := by
  intro n
  induction n with
  | zero =>
    intro first src dst cur s h
    simp only [std.uninitialized_move_loop, Outcome.ret.injEq, true_and] at h
    subst h
    simp
  | succ n ih =>
    intro first src dst cur s h
    rw [std.uninitialized_move_loop] at h
    cases hr : src.read first with
    | none => rw [hr] at h; simp at h
    | some x =>
      rw [hr] at h
      cases hraw : dst.is_raw cur with
      | false => rw [hraw] at h; simp at h
      | true =>
        rw [hraw] at h
        simp only at h
        cases hm : T.move_ctor x with
        | error e => rw [hm] at h; simp at h
        | ok p =>
          obtain ⟨y, r⟩ := p
          rw [hm] at h
          simp only at h
          obtain ⟨h1, h2, h3⟩ := ih _ _ _ _ _ h
          rw [Block.assign_length] at h1 h2 h3
          refine ⟨h1, h2, fun _ => ?_⟩
          have := Block.is_raw_lt dst cur hraw
          by_cases hn : n = 0
          · omega
          · have := h3 hn
            omega

theorem std.uninitialized_move_n_ret (n first : Nat) (src dst : Block α) (d_first : Nat)
    (src1 dst1 : Block α)
    (h : std.uninitialized_move_n T src first n dst d_first = .ret () (src1, dst1)) :
    dst1.length = dst.length ∧ src1.length = src.length ∧ (n ≠ 0 → d_first + n ≤ dst.length) := by
  unfold std.uninitialized_move_n at h
  cases hl : std.uninitialized_move_loop T first n src dst d_first with
  | ub => rw [hl] at h; simp at h
  | threw e s =>
    rw [hl] at h
    simp only at h
    split at h <;> simp at h
  | ret u s =>
    obtain ⟨a, b, c⟩ := s
    rw [hl] at h
    simp only [Outcome.ret.injEq, Prod.mk.injEq, true_and] at h
    have := std.uninitialized_move_loop_ret n first src dst d_first (a, b, c) hl
    rw [← h.1, ← h.2]
    exact this
theorem Platform.double_of_lt (P : Platform) (n len : Nat) (hn : n < 2 ^ P.word_bits)
    (h0 : n ≠ 0) (hlen : len ≤ P.wrap (n * 2)) (hlt : n < len) :
    P.wrap (n * 2) = max 1 (2 * n) := by
  unfold Platform.wrap at *
  by_cases hov : n * 2 < 2 ^ P.word_bits
  · rw [Nat.mod_eq_of_lt hov]
    omega
  · exfalso
    have h1 : n * 2 % 2 ^ P.word_bits = n * 2 - 2 ^ P.word_bits := by
      rw [Nat.mod_eq_sub_mod (by omega), Nat.mod_eq_of_lt (by omega)]
    omega

theorem RawMemory.put_capacity (m : RawMemory α) (b : Block α) :
    (m.put b).capacity_ = m.capacity_ := rfl

theorem Vector.EmplaceBack_ret_capacity (P : Platform) (T : ElemType α ε) (v : Vector α)
    (a : Arg α) (r : Nat) (s : Effect α) (hsz : v.size_ < 2 ^ P.word_bits)
    (h : Vector.EmplaceBack P T v a = .ret r s) :
    s.self.Capacity
        = (if v.size_ = v.Capacity then max 1 (2 * v.Capacity) else v.Capacity) ∧
      s.self.size_ = P.wrap (v.size_ + 1) := by
  unfold Vector.EmplaceBack at h
  simp only [Vector.Capacity, RawMemory.Capacity] at h ⊢
  by_cases hfull : v.size_ = v.data_.capacity_
  · rw [if_pos hfull] at h ⊢
    cases hm : RawMemory.ctor_capacity P T (if v.size_ = 0 then 1 else P.wrap (v.size_ * 2)) with
    | error e => rw [hm] at h; simp at h
    | ok new_data =>
      rw [hm] at h
      simp only at h
      obtain ⟨hc1, hc2, _⟩ := RawMemory.ctor_capacity_ret P T _ new_data hm
      cases hp : placement_new T new_data.GetAddress v.size_ a with
      | ub => rw [hp] at h; simp at h
      | threw e nb => rw [hp] at h; simp at h
      | ret a1 nb =>
        rw [hp] at h
        simp only at h
        obtain ⟨hp1, _⟩ := placement_new_ret _ _ _ _ _ hp
        have hcap : new_data.capacity_ = max 1 (2 * v.data_.capacity_) := by
          rw [hc1, ← hfull]
          by_cases h0 : v.size_ = 0
          · simp [h0]
          · rw [if_neg h0]
            rw [if_neg h0] at hc2
            exact P.double_of_lt v.size_ _ hsz h0 hc2 hp1
        split at h
        · simp at h
        · simp at h
        · split at h
          · simp at h
          · simp only [Outcome.ret.injEq] at h
            rw [← h.2]
            simp only [RawMemory.Swap, RawMemory.put_capacity]
            exact ⟨hcap, trivial⟩
  · rw [if_neg hfull] at h ⊢
    cases hp : placement_new T v.data_.GetAddress v.size_ a with
    | ub => rw [hp] at h; simp at h
    | threw e nb => rw [hp] at h; simp at h
    | ret a1 nb =>
      rw [hp] at h
      simp only [Outcome.ret.injEq] at h
      rw [← h.2]
      exact ⟨rfl, rfl⟩
theorem Vector.Emplace_ret_capacity (P : Platform) (T : ElemType α ε) (v : Vector α)
    (offset : Nat) (a : Arg α) (r : Nat) (s : Effect α) (hsz : v.size_ < 2 ^ P.word_bits)
    (h : Vector.Emplace P T v offset a = .ret r s) :
    s.self.Capacity
      = if v.size_ = v.Capacity then max 1 (2 * v.Capacity) else v.Capacity := by
  unfold Vector.Emplace at h
  simp only [Vector.Capacity, RawMemory.Capacity] at h ⊢
  by_cases hfull : v.size_ = v.data_.capacity_
  · rw [if_pos hfull]
    rw [if_neg (by simpa using hfull)] at h
    cases hm : RawMemory.ctor_capacity P T (if v.size_ = 0 then 1 else P.wrap (v.size_ * 2)) with
    | error e => rw [hm] at h; simp at h
    | ok new_data =>
      rw [hm] at h
      simp only at h
      obtain ⟨hc1, hc2, _⟩ := RawMemory.ctor_capacity_ret P T _ new_data hm
      cases hm1 : std.uninitialized_move_n T v.data_.GetAddress 0 offset new_data.GetAddress 0 with
      | ub => rw [hm1] at h; simp at h
      | threw e st =>
        rw [hm1] at h
        simp only at h
        split at h <;> simp at h
      | ret u st =>
        obtain ⟨ob, nb⟩ := st
        rw [hm1] at h
        simp only at h
        obtain ⟨hl1, _, _⟩ := std.uninitialized_move_n_ret _ _ _ _ _ _ _ hm1
        cases hp : placement_new T nb offset a with
        | ub => rw [hp] at h; simp at h
        | threw e nb1 =>
          rw [hp] at h
          simp only at h
          split at h <;> simp at h
        | ret a1 nb1 =>
          rw [hp] at h
          simp only at h
          obtain ⟨hp1, hp2⟩ := placement_new_ret _ _ _ _ _ hp
          cases hm2 : std.uninitialized_move_n T ob offset (P.sub v.size_ offset) nb1
              (offset + 1) with
          | ub => rw [hm2] at h; simp at h
          | threw e st =>
            rw [hm2] at h
            simp only at h
            split at h <;> simp at h
          | ret u st =>
            obtain ⟨ob2, nb2⟩ := st
            rw [hm2] at h
            simp only at h
            obtain ⟨_, _, hcnt⟩ := std.uninitialized_move_n_ret _ _ _ _ _ _ _ hm2
            have hpos : 0 < 2 ^ P.word_bits := by positivity
            have hL : new_data.GetAddress.length < 2 ^ P.word_bits ∨
                new_data.GetAddress.length ≤ 1 := by
              by_cases h0 : v.size_ = 0
              · rw [if_pos h0] at hc2
                exact Or.inr hc2
              · rw [if_neg h0] at hc2
                exact Or.inl (lt_of_le_of_lt hc2 (Nat.mod_lt _ hpos))
            have hlt : v.size_ < new_data.GetAddress.length := by
              by_cases hle : offset ≤ v.size_
              · rw [P.sub_of_le _ _ hle hsz] at hcnt
                by_cases hz : v.size_ - offset = 0
                · omega
                · have := hcnt hz
                  omega
              · exfalso
                have hsub : P.sub v.size_ offset = v.size_ + 2 ^ P.word_bits - offset := by
                  unfold Platform.sub Platform.wrap
                  exact Nat.mod_eq_of_lt (by omega)
                rw [hsub] at hcnt
                have := hcnt (by omega)
                omega
            have hcap : new_data.capacity_ = max 1 (2 * v.data_.capacity_) := by
              rw [hc1, ← hfull]
              by_cases h0 : v.size_ = 0
              · simp [h0]
              · rw [if_neg h0]
                rw [if_neg h0] at hc2
                exact P.double_of_lt v.size_ _ hsz h0 hc2 hlt
            split at h
            · simp at h
            · simp only [Outcome.ret.injEq] at h
              rw [← h.2]
              simp only [RawMemory.Swap, RawMemory.put_capacity]
              exact hcap
  · rw [if_neg hfull]
    rw [if_pos (by simpa using hfull)] at h
    cases hc : T.construct a with
    | error e => rw [hc] at h; simp at h
    | ok p =>
      obtain ⟨tmpl, a1⟩ := p
      rw [hc] at h
      simp only at h
      by_cases h0 : v.size_ ≠ 0
      · rw [if_pos h0] at h
        split at h
        · split at h
          · simp at h
          · split at h
            · simp at h
            · split at h <;> simp at h
            · simp only [Outcome.ret.injEq] at h
              rw [← h.2]
              rfl
        · simp at h
      · rw [if_neg h0] at h
        split at h
        · simp at h
        · simp at h
        · simp only [Outcome.ret.injEq] at h
          rw [← h.2]
          rfl
theorem Vector.appends_ret_capacity (P : Platform) (T : ElemType α ε) :
    ∀ (as : List (Arg α)) (v v1 : Vector α), v.size_ < 2 ^ P.word_bits →
      Vector.appends P T v as = .ret () v1 → v.Capacity ≤ v1.Capacity := by
  intro as
  induction as with
  | nil =>
    intro v v1 _ h
    simp only [Vector.appends, Outcome.ret.injEq, true_and] at h
    rw [h]
  | cons a as ih =>
    intro v v1 hsz h
    rw [Vector.appends] at h
    cases hs : Vector.EmplaceBack P T v a with
    | ub => rw [hs] at h; simp at h
    | threw e s => rw [hs] at h; simp at h
    | ret r s =>
      rw [hs] at h
      simp only at h
      obtain ⟨h1, h2⟩ := Vector.EmplaceBack_ret_capacity P T v a r s hsz hs
      have h3 : s.self.size_ < 2 ^ P.word_bits := by
        rw [h2]
        exact Nat.mod_lt _ (by positivity)
      have h4 := ih s.self v1 h3 h
      have h5 : v.Capacity ≤ s.self.Capacity := by
        rw [h1]
        split <;> omega
      omega

/-! ## Erase, Reserve, Resize, copies and insertion on arrays that satisfy the invariant -/

theorem RawMemory.put_GetAddress (m : RawMemory α) : m.put m.GetAddress = m := by
  obtain ⟨buf, c⟩ := m
  cases buf <;> rfl

theorem Block.of_split (xs : List α) (cap i : Nat) (h : i < xs.length) :
    Block.of xs cap
      = (xs.take i).map some
          ++ some (xs.get ⟨i, h⟩)
            :: ((xs.drop (i + 1)).map some ++ List.replicate (cap - xs.length) none) := by
  have e : xs.take i ++ xs.get ⟨i, h⟩ :: xs.drop (i + 1) = xs := by
    rw [List.get_eq_getElem, ← List.drop_eq_getElem_cons h]
    exact List.take_append_drop i xs
  unfold Block.of
  conv_lhs => rw [← e]
  simp only [List.map_append, List.map_cons, List.append_assoc, List.cons_append]
  rw [e]

theorem Vector.Erase_ok (hT : T.NoFail) (v : Vector α) (xs : List α) (cap : Nat)
    (hv : v.Holds xs cap) (i : Nat) (hi : i < xs.length) :
    ∃ v1, Vector.Erase T v i = .ret i v1 ∧ v1.Holds (xs.take i ++ xs.drop (i + 1)) cap := by
  have hle := hv.1
  have hv1 := Vector.Holds.eq v xs cap hv
  subst hv1
  have hc0 : cap ≠ 0 := by omega
  have hlen : (xs.take i ++ xs.drop (i + 1)).length = xs.length - 1 := by
    simp; omega
  obtain ⟨r, hr⟩ := std.move_ok hT (xs.drop (i + 1)) ((xs.take i).map some)
    (List.replicate (cap - xs.length) none) (xs.get ⟨i, hi⟩) (i + 1) xs.length i
    (by simp; omega) (by simp; omega) (by simp; omega)
  refine ⟨{ data_ := { buffer_ := some (Block.of (xs.take i ++ xs.drop (i + 1)) cap),
                       capacity_ := cap },
            size_ := xs.length - 1 }, ?_, ?_⟩
  · simp only [Vector.Erase, Vector.end_, RawMemory.GetAddress, if_neg hc0, Option.getD_some,
      Block.of_split xs cap i hi, hr, RawMemory.put, Option.map_some', Vector.PopBack]
    have hne : xs.length ≠ 0 := by omega
    rw [if_neg hne]
    have hD := Vector.Destroy_mid ((xs.take i).map some ++ (xs.drop (i + 1)).map some)
      (List.replicate (cap - xs.length) none) r (xs.length - 1) (by simp; omega)
    simp only [RawMemory.GetAddress, Option.getD_some, hD]
    have e : cap - (xs.length - 1) = (cap - xs.length) + 1 := by omega
    simp [Block.of, hlen, e, List.replicate_succ]
  · refine ⟨by rw [hlen]; omega, by rw [hlen], rfl, ?_⟩
    simp [hc0]
theorem Vector.assign_copy_self (P : Platform) (T : ElemType α ε) (self : Vector α) :
    Vector.assign_copy P T self none = .ret () ⟨self, 0⟩ := rfl

theorem Vector.Emplace_full_ok (P : Platform) (hT : T.NoFail) (v : Vector α) (xs : List α)
    (a : Arg α) (i : Nat) (hv : v.Holds xs xs.length) (hi : i ≤ xs.length)
    (hcap : xs.length < 2 ^ P.word_bits)
    (hfit : max 1 (2 * xs.length) * T.sizeof < 2 ^ P.word_bits)
    (hnew : P.operator_new (max 1 (2 * xs.length) * T.sizeof) = true) :
    ∃ v1, Vector.Emplace P T v i a = .ret i ⟨v1, 0⟩ ∧
      v1.Holds (xs.take i ++ a.value :: xs.drop i) (max 1 (2 * xs.length)) := by
  have hv1 := Vector.Holds.eq v xs xs.length hv
  subst hv1
  have hs := hT.sizeof_pos
  have hc0 : max 1 (2 * xs.length) ≠ 0 := by omega
  have hlt : max 1 (2 * xs.length) < 2 ^ P.word_bits :=
    lt_of_le_of_lt (Nat.le_mul_of_pos_right _ hs) hfit
  have hsz : P.wrap (xs.length + 1) = xs.length + 1 := P.wrap_of_lt _ (by omega)
  have hsub : P.sub xs.length i = xs.length - i := P.sub_of_le _ _ hi hcap
  have hnc : (if xs.length = 0 then 1 else P.wrap (xs.length * 2)) = max 1 (2 * xs.length) := by
    by_cases h0 : xs.length = 0
    · simp [h0]
    · rw [if_neg h0, P.wrap_of_lt _ (by omega)]
      omega
  have hold := Block.getD_of xs xs.length (le_refl _)
  rw [Block.of_full xs] at hold
  -- the old block, split at the insertion point
  have hsplit : xs.map some = [] ++ (xs.take i).map some ++ (xs.drop i).map some := by
    rw [List.nil_append, ← List.map_append, List.take_append_drop]
  have hlt1 : (xs.take i).length = i := by simp; omega
  have hld : (xs.drop i).length = xs.length - i := by simp
  -- the new block, split into prefix, slot of the new element, suffix, rest
  have hrep : List.replicate (max 1 (2 * xs.length)) (none : Option α)
      = [] ++ List.replicate i none
          ++ (none :: (List.replicate (xs.drop i).length none
              ++ List.replicate (max 1 (2 * xs.length) - xs.length - 1) none)) := by
    rw [hld, List.nil_append, ← List.replicate_add, ← List.replicate_succ,
      ← List.replicate_add]
    congr 1
    omega
  obtain ⟨rs1, hrs1, hm1⟩ := std.uninitialized_move_n_ok hT (xs.take i) []
    ((xs.drop i).map some) []
    (none :: (List.replicate (xs.drop i).length none
      ++ List.replicate (max 1 (2 * xs.length) - xs.length - 1) none)) 0 0 rfl rfl
  rw [hlt1] at hm1
  obtain ⟨a1, ha1⟩ := placement_new_ok hT ((xs.take i).map some)
    (List.replicate (xs.drop i).length none
      ++ List.replicate (max 1 (2 * xs.length) - xs.length - 1) none) i a (by simp; omega)
  obtain ⟨rs2, hrs2, hm2⟩ := std.uninitialized_move_n_ok hT (xs.drop i) (rs1.map some) []
    ((xs.take i).map some ++ [some a.value])
    (List.replicate (max 1 (2 * xs.length) - xs.length - 1) none) i (i + 1)
    (by simp [hrs1]; omega) (by simp; omega)
  rw [hld] at hm2
  have hD : std.destroy_n ([] ++ (rs1 ++ rs2).map some ++ []) 0 (rs1 ++ rs2).length
      = some ([] ++ List.replicate (rs1 ++ rs2).length none ++ []) :=
    std.destroy_n_live (rs1 ++ rs2) [] [] 0 rfl
  have hrl : (rs1 ++ rs2).length = xs.length := by
    rw [List.length_append, hrs1, hrs2, hlt1, hld]
    omega
  rw [hrl] at hD
  simp only [List.nil_append, List.append_nil, List.map_append] at hD
  refine ⟨{ data_ := { buffer_ := some (Block.of (xs.take i ++ a.value :: xs.drop i)
                         (max 1 (2 * xs.length))),
                       capacity_ := max 1 (2 * xs.length) },
            size_ := xs.length + 1 }, ?_, ?_⟩
  · unfold Vector.Emplace
    simp only [Vector.Capacity, RawMemory.Capacity, ne_eq, not_true_eq_false, if_false, hnc,
      RawMemory.ctor_capacity_ok P hT _ hc0 hfit hnew, RawMemory.GetAddress, hold,
      Block.of_full xs, Option.getD_some, hsub]
    rw [hrep]
    conv_lhs => rw [hsplit]
    rw [hm1]
    simp only [List.nil_append]
    rw [ha1]
    simp only []
    have e1 : (xs.take i).map some ++ some a.value
          :: (List.replicate (xs.drop i).length none
              ++ List.replicate (max 1 (2 * xs.length) - xs.length - 1) none)
        = ((xs.take i).map some ++ [some a.value]) ++ List.replicate (xs.length - i) none
            ++ List.replicate (max 1 (2 * xs.length) - xs.length - 1) none := by
      rw [hld]
      simp
    have e2 : rs1.map some ++ (xs.drop i).map some
        = rs1.map some ++ (xs.drop i).map some ++ [] := by simp
    rw [e1, e2, hm2]
    simp only [List.append_nil, hD]
    simp only [RawMemory.Swap, RawMemory.put, Option.map_some', hsz, RawMemory.dtor_raw]
    congr 4
    simp [Block.of, hld]
    omega
  · refine ⟨by simp; omega, by simp; omega, rfl, ?_⟩
    simp
theorem Vector.Emplace_spare_ok (P : Platform) (hT : T.NoFail) (v : Vector α) (ys : List α)
    (l : α) (cap : Nat) (a : Arg α) (i : Nat) (hv : v.Holds (ys ++ [l]) cap)
    (hi : i ≤ ys.length) (hspare : ys.length + 1 < cap) (hcap : cap < 2 ^ P.word_bits) :
    ∃ v1, Vector.Emplace P T v i a = .ret i ⟨v1, 0⟩ ∧
      v1.Holds (ys.take i ++ a.value :: (ys.drop i ++ [l])) cap := by
  have hv1 := Vector.Holds.eq v (ys ++ [l]) cap hv
  subst hv1
  have hc0 : cap ≠ 0 := by omega
  have hlen : (ys ++ [l]).length = ys.length + 1 := by simp
  have hsz : P.wrap (ys.length + 1 + 1) = ys.length + 1 + 1 := P.wrap_of_lt _ (by omega)
  obtain ⟨a1, ha1⟩ := hT.construct a
  obtain ⟨r, hr⟩ := hT.move_ctor l
  -- the block before the call
  have hblk : Block.of (ys ++ [l]) cap
      = ys.map some ++ some l :: (none :: List.replicate (cap - ys.length - 2) none) := by
    unfold Block.of
    rw [hlen]
    have e : cap - (ys.length + 1) = (cap - ys.length - 2) + 1 := by omega
    rw [e, List.replicate_succ]
    simp
  have hread : Block.read (ys.map some ++ some l
      :: (none :: List.replicate (cap - ys.length - 2) none)) ys.length = some l :=
    Block.read_mid _ _ l _ (by simp)
  have hraw : Block.is_raw (ys.map some ++ some l
      :: (none :: List.replicate (cap - ys.length - 2) none)) (ys.length + 1) = true := by
    have e : ys.map some ++ some l :: (none :: List.replicate (cap - ys.length - 2) none)
        = (ys.map some ++ [some l]) ++ none :: List.replicate (cap - ys.length - 2) none := by
      simp
    rw [e]
    exact Block.is_raw_mid _ _ _ (by simp)
  -- the speculative tail element
  have hb1 : Block.assign (Block.assign (ys.map some ++ some l
        :: (none :: List.replicate (cap - ys.length - 2) none)) ys.length r)
        (ys.length + 1) l
      = (ys.take i).map some ++ (ys.drop i).map some
          ++ some r :: (some l :: List.replicate (cap - ys.length - 2) none) := by
    rw [Block.assign_mid _ _ (some l) r ys.length (by simp)]
    have e : ys.map some ++ some r :: (none :: List.replicate (cap - ys.length - 2) none)
        = (ys.map some ++ [some r]) ++ none :: List.replicate (cap - ys.length - 2) none := by
      simp
    rw [e, Block.assign_mid _ _ none l (ys.length + 1) (by simp)]
    rw [← List.map_append, List.take_append_drop]
    simp
  obtain ⟨r1, hmb⟩ := std.move_backward_ok hT (ys.drop i) ((ys.take i).map some)
    (some l :: List.replicate (cap - ys.length - 2) none) r i ys.length (ys.length + 1)
    (by simp; omega) (by simp; omega) (by simp; omega)
  obtain ⟨r2, hma⟩ := hT.move_assign r1 a.value
  refine ⟨{ data_ := { buffer_ := some (Block.of (ys.take i ++ a.value :: (ys.drop i ++ [l]))
                         cap),
                       capacity_ := cap },
            size_ := ys.length + 1 + 1 }, ?_, ?_⟩
  · unfold Vector.Emplace
    have hne : (ys ++ [l]).length ≠ cap := by rw [hlen]; omega
    have hn0 : (ys ++ [l]).length ≠ 0 := by rw [hlen]; omega
    simp only [Vector.Capacity, RawMemory.Capacity, ne_eq, hne, not_false_eq_true, if_true, ha1,
      hn0, RawMemory.GetAddress, if_neg hc0, Option.getD_some]
    rw [hblk, hlen, Nat.add_sub_cancel, hread, hraw]
    simp only [hr, hb1, hmb]
    rw [Block.read_mid _ _ r1 i (by simp; omega)]
    simp only [hma, Block.assign_mid _ _ (some r1) a.value i (show i = ((ys.take i).map some).length
      by simp; omega), RawMemory.put, Option.map_some', hsz]
    congr 4
    simp [Block.of]
    omega
  · refine ⟨by simp; omega, by simp; omega, rfl, ?_⟩
    simp [hc0]
/-- Insert/Emplace where the code handles it: at any position when the array is
full, and before the last position when it has spare capacity. -/
theorem Vector.Emplace_ok (P : Platform) (hT : T.NoFail) (v : Vector α) (xs : List α)
    (cap : Nat) (a : Arg α) (i : Nat) (hv : v.Holds xs cap) (hi : i ≤ xs.length)
    (hdom : xs.length = cap ∨ i < xs.length) (hcap : cap < 2 ^ P.word_bits)
    (hroom : xs.length = cap →
      max 1 (2 * cap) * T.sizeof < 2 ^ P.word_bits ∧
        P.operator_new (max 1 (2 * cap) * T.sizeof) = true) :
    ∃ v1, Vector.Emplace P T v i a = .ret i ⟨v1, 0⟩ ∧
      v1.Holds (xs.take i ++ a.value :: xs.drop i)
        (if xs.length = cap then max 1 (2 * cap) else cap) := by
  by_cases hfull : xs.length = cap
  · rw [if_pos hfull]
    subst hfull
    exact Vector.Emplace_full_ok P hT v xs a i hv hi hcap (hroom rfl).1 (hroom rfl).2
  · rw [if_neg hfull]
    have hlt : i < xs.length := by
      rcases hdom with h | h
      · exact absurd h hfull
      · exact h
    have hne : xs ≠ [] := by
      intro h
      rw [h] at hlt
      simp at hlt
    have hxs : xs.dropLast ++ [xs.getLast hne] = xs := List.dropLast_append_getLast hne
    have hdl : xs.dropLast.length = xs.length - 1 := by simp
    have hle := hv.1
    have hv2 : v.Holds (xs.dropLast ++ [xs.getLast hne]) cap := by rwa [hxs]
    obtain ⟨v1, h1, h2⟩ := Vector.Emplace_spare_ok P hT v xs.dropLast (xs.getLast hne) cap a i
      hv2 (by omega) (by omega) hcap
    refine ⟨v1, h1, ?_⟩
    have e1 : xs.take i = xs.dropLast.take i := by
      conv_lhs => rw [← hxs]
      exact List.take_append_of_le_length (by omega)
    have e2 : xs.drop i = xs.dropLast.drop i ++ [xs.getLast hne] := by
      conv_lhs => rw [← hxs]
      exact List.drop_append_of_le_length (by omega)
    rw [e1, e2]
    exact h2

/-- Inserting at the end of a non-empty array with spare capacity never returns
normally: once `tmpl` and the speculative tail element are constructed, the range
given to `std::move_backward` starts behind its end. -/
theorem Vector.Emplace_end_spare_no_ret (P : Platform) (T : ElemType α ε) (v : Vector α)
    (a : Arg α) (h1 : v.size_ ≠ v.Capacity) (h0 : v.size_ ≠ 0) (r : Nat) (s : Effect α) :
    Vector.Emplace P T v v.size_ a ≠ .ret r s := by
  intro h
  unfold Vector.Emplace at h
  rw [if_pos h1] at h
  cases hc : T.construct a with
  | error e => rw [hc] at h; cases h
  | ok p =>
    obtain ⟨tmpl, a1⟩ := p
    rw [hc] at h
    simp only at h
    rw [if_pos h0] at h
    have hrange : ¬ v.size_ ≤ v.size_ - 1 := by omega
    split at h
    · split at h
      · cases h
      · simp only [std.move_backward, if_neg hrange] at h
        cases h
    · cases h

/-! ## What a normal return of a reallocating operation implies -/

theorem Block.is_raw_split (A R : Block α) (cur : Nat) (hc : cur = A.length)
    (h : Block.is_raw (A ++ R) cur = true) : ∃ R1, R = none :: R1 := by
  subst hc
  cases R with
  | nil =>
    have := Block.is_raw_lt _ _ h
    simp at this
  | cons x R1 =>
    cases x with
    | none => exact ⟨R1, rfl⟩
    | some y =>
      unfold Block.is_raw at h
      rw [get?_mid A R1 (some y) A.length rfl] at h
      simp at h

/-- Where the loop of `std::uninitialized_copy_n` stands when a copy throws: the
slots it has filled so far were raw and come next to each other. -/
theorem std.uninitialized_copy_loop_threw (src : Block α) :
    ∀ (n first : Nat) (A R : Block α) (cur : Nat) (e : Exception ε) (st : Block α × Nat),
      cur = A.length →
      std.uninitialized_copy_loop T src first n (A ++ R) cur = .threw e st →
      ∃ (ys : List α) (R2 : Block α), R = List.replicate ys.length none ++ R2 ∧
        st = (A ++ ys.map some ++ R2, cur + ys.length) ∧ ys.length < n := by
  intro n
  induction n with
  | zero =>
    intro first A R cur e st _ h
    simp [std.uninitialized_copy_loop] at h
  | succ n ih =>
    intro first A R cur e st hc h
    rw [std.uninitialized_copy_loop] at h
    cases hr : src.read first with
    | none => rw [hr] at h; simp at h
    | some x =>
      rw [hr] at h
      cases hraw : Block.is_raw (A ++ R) cur with
      | false => rw [hraw] at h; simp at h
      | true =>
        rw [hraw] at h
        simp only at h
        obtain ⟨R1, hR1⟩ := Block.is_raw_split A R cur hc hraw
        subst hR1
        cases hm : T.copy_ctor x with
        | error e1 =>
          rw [hm] at h
          simp only [Outcome.threw.injEq] at h
          refine ⟨[], none :: R1, by simp, ?_, by simp⟩
          rw [← h.2]
          simp
        | ok y =>
          rw [hm] at h
          simp only at h
          rw [Block.assign_mid A R1 none y cur hc] at h
          have e1 : A ++ some y :: R1 = (A ++ [some y]) ++ R1 := by simp
          rw [e1] at h
          obtain ⟨ys, R2, hR, hst, hlen⟩ := ih (first + 1) (A ++ [some y]) R1 (cur + 1) e st
            (by simp [hc]) h
          refine ⟨y :: ys, R2, ?_, ?_, by simp; omega⟩
          · rw [hR]
            simp [List.replicate_succ]
          · rw [hst]
            simp
            omega

/-- When `std::uninitialized_copy_n` throws, the destination is what it was. -/
theorem std.uninitialized_copy_n_threw (src : Block α) (n first : Nat) (A R : Block α)
    (d_first : Nat) (e : Exception ε) (dst1 : Block α) (hc : d_first = A.length)
    (h : std.uninitialized_copy_n T src first n (A ++ R) d_first = .threw e dst1) :
    dst1 = A ++ R := by
  unfold std.uninitialized_copy_n at h
  cases hl : std.uninitialized_copy_loop T src first n (A ++ R) d_first with
  | ub => rw [hl] at h; simp at h
  | ret u st => rw [hl] at h; simp at h
  | threw e1 st =>
    obtain ⟨ys, R2, hR, hst, _⟩ := std.uninitialized_copy_loop_threw src n first A R d_first
      e1 st hc hl
    rw [hl] at h
    subst hst
    simp only [Nat.add_sub_cancel_left] at h
    rw [std.destroy_n_live ys A R2 d_first hc] at h
    simp only [Outcome.threw.injEq] at h
    rw [← h.2, hR]
    simp

/-- The loop of `std::uninitialized_copy_n` throws what the copy constructor of
the first element that cannot be copied throws. -/
theorem std.uninitialized_copy_loop_fails (e : ε) (x : α) (hx : T.copy_ctor x = .error e)
    (ys : List α) :
    (∀ y ∈ ys, ∃ z, T.copy_ctor y = .ok z) →
    ∀ (A0 B0 A B : Block α) (first cur m : Nat), first = A0.length → cur = A.length →
      ∃ st, std.uninitialized_copy_loop T (A0 ++ ys.map some ++ some x :: B0) first
          (ys.length + 1 + m) (A ++ List.replicate (ys.length + 1) none ++ B) cur
        = .threw (.elem e) st := by
  induction ys with
  | nil =>
    intro _ A0 B0 A B first cur m h1 h2
    have e1 : A ++ List.replicate ([] : List α).length.succ none ++ B = A ++ none :: B := by
      simp
    refine ⟨(A ++ none :: B, cur), ?_⟩
    simp only [List.length_nil, Nat.zero_add, List.map_nil, List.append_nil]
    rw [Nat.add_comm 1 m, std.uninitialized_copy_loop, Block.read_mid A0 B0 x first h1]
    simp only [List.replicate_one, List.append_assoc, List.singleton_append,
      Block.is_raw_mid A B cur h2, hx]
  | cons y ys ih =>
    intro hys A0 B0 A B first cur m h1 h2
    obtain ⟨z, hz⟩ := hys y (by simp)
    obtain ⟨st, hst⟩ := ih (fun w hw => hys w (by simp [hw])) (A0 ++ [some y]) B0
      (A ++ [some z]) B (first + 1) (cur + 1) m (by simp [h1]) (by simp [h2])
    refine ⟨st, ?_⟩
    have e1 : A0 ++ List.map some (y :: ys) ++ some x :: B0
        = A0 ++ some y :: (ys.map some ++ some x :: B0) := by simp
    have e2 : A ++ List.replicate ((y :: ys).length + 1) none ++ B
        = A ++ none :: (List.replicate (ys.length + 1) none ++ B) := by
      simp [List.replicate_succ]
    have e3 : (y :: ys).length + 1 + m = (ys.length + 1 + m) + 1 := by simp; omega
    rw [e3, std.uninitialized_copy_loop, e1, e2, Block.read_mid A0 _ y first h1,
      Block.is_raw_mid A _ cur h2]
    simp only [hz, Block.assign_mid A _ none z cur h2]
    have e4 : A0 ++ some y :: (ys.map some ++ some x :: B0)
        = (A0 ++ [some y]) ++ ys.map some ++ some x :: B0 := by simp
    have e5 : A ++ some z :: (List.replicate (ys.length + 1) none ++ B)
        = (A ++ [some z]) ++ List.replicate (ys.length + 1) none ++ B := by simp
    rw [e4, e5]
    exact hst

theorem std.uninitialized_copy_n_fails (e : ε) (x : α) (hx : T.copy_ctor x = .error e)
    (ys : List α) (hys : ∀ y ∈ ys, ∃ z, T.copy_ctor y = .ok z) (A0 B0 A B : Block α)
    (first cur m : Nat) (h1 : first = A0.length) (h2 : cur = A.length) :
    std.uninitialized_copy_n T (A0 ++ ys.map some ++ some x :: B0) first (ys.length + 1 + m)
        (A ++ List.replicate (ys.length + 1) none ++ B) cur
      = .threw (.elem e) (A ++ List.replicate (ys.length + 1) none ++ B) := by
  obtain ⟨st, hst⟩ := std.uninitialized_copy_loop_fails e x hx ys hys A0 B0 A B first cur m
    h1 h2
  have hA : A ++ List.replicate (ys.length + 1) none ++ B
      = A ++ (List.replicate (ys.length + 1) none ++ B) := by simp
  obtain ⟨zs, R2, hR, hst2, _⟩ := std.uninitialized_copy_loop_threw _ _ first A
    (List.replicate (ys.length + 1) none ++ B) cur (.elem e) st h2 (by rw [← hA]; exact hst)
  unfold std.uninitialized_copy_n
  rw [hst, hst2]
  simp only [Nat.add_sub_cancel_left]
  rw [std.destroy_n_live zs A R2 cur h2, hA, hR]
  simp
theorem placement_new_threw (b b1 : Block α) (i : Nat) (a : Arg α) (e : Exception ε)
    (h : placement_new T b i a = .threw e b1) : b1 = b := by
  unfold placement_new at h
  split at h
  · split at h
    · simp only [Outcome.threw.injEq] at h
      exact h.2.symm
    · simp at h
  · simp at h

theorem placement_new_ret_eq (b b1 : Block α) (i : Nat) (a a1 : Arg α)
    (h : placement_new T b i a = .ret a1 b1) :
    ∃ x, T.construct a = .ok (x, a1) ∧ b1 = b.assign i x ∧ b.is_raw i = true := by
  unfold placement_new at h
  by_cases hr : b.is_raw i = true
  · rw [if_pos hr] at h
    cases hc : T.construct a with
    | error e => rw [hc] at h; simp at h
    | ok p =>
      obtain ⟨x, a2⟩ := p
      rw [hc] at h
      simp only [Outcome.ret.injEq] at h
      exact ⟨x, by rw [h.1], h.2.symm, hr⟩
  · rw [if_neg hr] at h
    simp at h

/-- The block `RawMemory(capacity)` has obtained holds no object. -/
theorem RawMemory.ctor_capacity_raw (P : Platform) (T : ElemType α ε) (c : Nat)
    (m : RawMemory α) (h : RawMemory.ctor_capacity P T c = .ok m) :
    m.capacity_ = c ∧ ∃ L, m.GetAddress = List.replicate L none := by
  unfold RawMemory.ctor_capacity RawMemory.Allocate at h
  by_cases hc : c ≠ 0
  · rw [if_pos hc] at h
    by_cases hn : P.operator_new (P.wrap (c * T.sizeof)) = true
    · rw [if_pos hn] at h
      simp only [Except.ok.injEq] at h
      subst h
      exact ⟨rfl, _, rfl⟩
    · rw [if_neg hn] at h
      simp at h
  · rw [if_neg hc] at h
    simp only [Except.ok.injEq] at h
    subst h
    exact ⟨rfl, 0, rfl⟩

theorem RawMemory.dtor_put_raw (m : RawMemory α) (k : Nat) :
    (m.put (List.replicate k none)).dtor = 0 := by
  obtain ⟨buf, c⟩ := m
  exact RawMemory.dtor_raw buf c k

theorem Block.set_raw (L i : Nat) (x : Option α) :
    ((List.replicate L (none : Option α)).set i x).set i none = List.replicate L none := by
  rw [List.set_set]
  apply List.ext_getElem
  · simp
  · intro j h1 h2
    simp [List.getElem_set]

theorem Vector.Destroy_eq (b b1 : Block α) (i : Nat) (h : Vector.Destroy b i = some b1) :
    b1 = b.set i none := by
  unfold Vector.Destroy at h
  split at h
  · simp only [Option.some.injEq] at h
    exact h.symm
  · simp at h

/-- An append that moves the array to new storage by copying leaves the array as
it was, and nothing alive in the storage it gives back, whenever it throws. -/
theorem Vector.EmplaceBack_threw_copy (P : Platform) (T : ElemType α ε) (v : Vector α)
    (a : Arg α) (hflag : (T.is_nothrow_move_constructible || !T.is_copy_constructible) = false)
    (e : Exception ε) (s : Effect α) (h : Vector.EmplaceBack P T v a = .threw e s) :
    s = ⟨v, 0⟩ := by
  unfold Vector.EmplaceBack at h
  by_cases hfull : v.size_ = v.data_.Capacity
  · rw [if_pos hfull] at h
    cases hm : RawMemory.ctor_capacity P T (if v.size_ = 0 then 1 else P.wrap (v.size_ * 2)) with
    | error e1 =>
      rw [hm] at h
      simp only [Outcome.threw.injEq] at h
      exact h.2.symm
    | ok new_data =>
      rw [hm] at h
      simp only at h
      obtain ⟨_, L, hL⟩ := RawMemory.ctor_capacity_raw P T _ new_data hm
      rw [hL] at h
      cases hp : placement_new T (List.replicate L none) v.size_ a with
      | ub => rw [hp] at h; simp at h
      | threw e1 nb =>
        rw [hp] at h
        simp only [Outcome.threw.injEq] at h
        rw [← h.2, placement_new_threw _ _ _ _ _ hp, RawMemory.dtor_put_raw]
      | ret a1 nb =>
        rw [hp] at h
        simp only [hflag, Bool.false_eq_true, if_false] at h
        obtain ⟨x, _, hnb, _⟩ := placement_new_ret_eq _ _ _ _ _ hp
        cases hc : std.uninitialized_copy_n T v.data_.GetAddress 0 v.size_ nb 0 with
        | ub => rw [hc] at h; simp at h
        | ret u nb1 =>
          rw [hc] at h
          simp only at h
          split at h <;> simp at h
        | threw e1 nb1 =>
          rw [hc] at h
          simp only at h
          have hnb1 : nb1 = nb := by
            have := std.uninitialized_copy_n_threw v.data_.GetAddress v.size_ 0 [] nb 0 e1 nb1 rfl
              (by simpa using hc)
            simpa using this
          cases hd : Vector.Destroy nb1 v.size_ with
          | none => rw [hd] at h; simp at h
          | some nb2 =>
            rw [hd] at h
            simp only [Outcome.threw.injEq] at h
            have hnb2 : nb2 = List.replicate L none := by
              rw [Vector.Destroy_eq _ _ _ hd, hnb1, hnb, Block.assign, Block.set_raw]
            rw [← h.2, hnb2, RawMemory.dtor_put_raw, RawMemory.put_GetAddress]
  · rw [if_neg hfull] at h
    cases hp : placement_new T v.data_.GetAddress v.size_ a with
    | ub => rw [hp] at h; simp at h
    | ret a1 nb => rw [hp] at h; simp at h
    | threw e1 nb =>
      rw [hp] at h
      simp only [Outcome.threw.injEq] at h
      rw [← h.2, placement_new_threw _ _ _ _ _ hp, RawMemory.put_GetAddress]

/-- A Reserve that moves the array to new storage by copying leaves the array as
it was, and nothing alive in the storage it gives back, whenever it throws. -/
theorem Vector.Reserve_threw_copy (P : Platform) (T : ElemType α ε) (v : Vector α) (n : Nat)
    (hflag : (T.is_nothrow_move_constructible || !T.is_copy_constructible) = false)
    (e : Exception ε) (s : Effect α) (h : Vector.Reserve P T v n = .threw e s) :
    s = ⟨v, 0⟩ := by
  unfold Vector.Reserve at h
  by_cases hle : n ≤ v.data_.Capacity
  · rw [if_pos hle] at h
    simp at h
  · rw [if_neg hle] at h
    cases hm : RawMemory.ctor_capacity P T n with
    | error e1 =>
      rw [hm] at h
      simp only [Outcome.threw.injEq] at h
      exact h.2.symm
    | ok new_data =>
      rw [hm] at h
      simp only [hflag, Bool.false_eq_true, if_false] at h
      obtain ⟨_, L, hL⟩ := RawMemory.ctor_capacity_raw P T _ new_data hm
      rw [hL] at h
      cases hc : std.uninitialized_copy_n T v.data_.GetAddress 0 v.size_
          (List.replicate L none) 0 with
      | ub => rw [hc] at h; simp at h
      | ret u nb1 =>
        rw [hc] at h
        simp only at h
        split at h <;> simp at h
      | threw e1 nb1 =>
        rw [hc] at h
        simp only [Outcome.threw.injEq] at h
        have hnb1 : nb1 = List.replicate L none := by
          have := std.uninitialized_copy_n_threw v.data_.GetAddress v.size_ 0 []
            (List.replicate L none) 0 e1 nb1 rfl (by simpa using hc)
          simpa using this
        rw [← h.2, hnb1, RawMemory.dtor_put_raw, RawMemory.put_GetAddress]

theorem RawMemory.ctor_capacity_granted (P : Platform) (T : ElemType α ε) (c : Nat)
    (hc : c ≠ 0) (hs : 0 < T.sizeof) (hfit : c * T.sizeof < 2 ^ P.word_bits)
    (hnew : P.operator_new (c * T.sizeof) = true) :
    RawMemory.ctor_capacity P T c
      = (.ok { buffer_ := some (List.replicate c none), capacity_ := c } :
          Except (Exception ε) (RawMemory α)) := by
  simp only [RawMemory.ctor_capacity, RawMemory.Allocate, P.wrap_of_lt _ hfit, hnew,
    Nat.mul_div_cancel c hs]
  simp [hc]

theorem RawMemory.ctor_capacity_refused (P : Platform) (T : ElemType α ε) (c : Nat)
    (hc : c ≠ 0) (hnew : P.operator_new (P.wrap (c * T.sizeof)) = false) :
    RawMemory.ctor_capacity P T c = (.error .bad_alloc : Except (Exception ε) (RawMemory α)) := by
  simp [RawMemory.ctor_capacity, RawMemory.Allocate, hnew, hc]

theorem Platform.double_cap (P : Platform) (n : Nat) (h : max 1 (2 * n) < 2 ^ P.word_bits) :
    (if n = 0 then 1 else P.wrap (n * 2)) = max 1 (2 * n) := by
  by_cases h0 : n = 0
  · simp [h0]
  · rw [if_neg h0, P.wrap_of_lt _ (by omega)]
    omega

theorem Block.replicate_split (c n : Nat) (h : n < c) :
    List.replicate c (none : Option α)
      = List.replicate n none ++ none :: List.replicate (c - n - 1) none := by
  rw [← List.replicate_succ, ← List.replicate_add]
  congr 1
  omega

/-- An append to a full array whose new element cannot be constructed throws the
element's exception and leaves the array as it was. -/
theorem Vector.EmplaceBack_construct_fails (P : Platform) (T : ElemType α ε) (v : Vector α)
    (xs : List α) (a : Arg α) (hv : v.Holds xs xs.length) (hs : 0 < T.sizeof)
    (hfit : max 1 (2 * xs.length) * T.sizeof < 2 ^ P.word_bits)
    (hnew : P.operator_new (max 1 (2 * xs.length) * T.sizeof) = true)
    (e : ε) (ha : T.construct a = .error e) :
    Vector.EmplaceBack P T v a = .threw (.elem e) ⟨v, 0⟩ := by
  have hv1 := Vector.Holds.eq v xs xs.length hv
  subst hv1
  have hlt : max 1 (2 * xs.length) < 2 ^ P.word_bits :=
    lt_of_le_of_lt (Nat.le_mul_of_pos_right _ hs) hfit
  have hp : placement_new T (List.replicate xs.length none
      ++ none :: List.replicate (max 1 (2 * xs.length) - xs.length - 1) none) xs.length a
      = .threw (.elem e) (List.replicate (max 1 (2 * xs.length)) none) := by
    simp only [placement_new, Block.is_raw_mid (List.replicate xs.length none)
      (List.replicate (max 1 (2 * xs.length) - xs.length - 1) none) xs.length (by simp), ha,
      if_true]
    rw [← Block.replicate_split _ _ (by omega)]
  simp only [Vector.EmplaceBack, RawMemory.Capacity, if_true, P.double_cap _ hlt,
    RawMemory.ctor_capacity_granted P T _ (by omega) hs hfit hnew]
  simp only [RawMemory.GetAddress, Option.getD_some]
  rw [Block.replicate_split (max 1 (2 * xs.length)) xs.length (by omega), hp]
  simp only [RawMemory.dtor_put_raw]

/-- An append to a full array of a copy-transferred type throws the element's
exception and leaves the array as it was when the copy of one of the elements
fails. -/
theorem Vector.EmplaceBack_copy_fails (P : Platform) (T : ElemType α ε) (v : Vector α)
    (xs : List α) (a : Arg α)
    (hflag : (T.is_nothrow_move_constructible || !T.is_copy_constructible) = false)
    (hv : v.Holds xs xs.length) (hs : 0 < T.sizeof)
    (hfit : max 1 (2 * xs.length) * T.sizeof < 2 ^ P.word_bits)
    (hnew : P.operator_new (max 1 (2 * xs.length) * T.sizeof) = true)
    (x : α) (a1 : Arg α) (ha : T.construct a = .ok (x, a1))
    (ys zs : List α) (z : α) (e : ε) (hxs : xs = ys ++ z :: zs)
    (hys : ∀ y ∈ ys, ∃ w, T.copy_ctor y = .ok w) (hz : T.copy_ctor z = .error e) :
    Vector.EmplaceBack P T v a = .threw (.elem e) ⟨v, 0⟩ := by
  have key : ∃ s, Vector.EmplaceBack P T v a = .threw (.elem e) s := by
    have hv1 := Vector.Holds.eq v xs xs.length hv
    subst hv1
    have hlt : max 1 (2 * xs.length) < 2 ^ P.word_bits :=
      lt_of_le_of_lt (Nat.le_mul_of_pos_right _ hs) hfit
    have hold := Block.getD_of xs xs.length (le_refl _)
    rw [Block.of_full xs] at hold
    have hp : placement_new T (List.replicate xs.length none
        ++ none :: List.replicate (max 1 (2 * xs.length) - xs.length - 1) none) xs.length a
        = .ret a1 (List.replicate xs.length none
            ++ some x :: List.replicate (max 1 (2 * xs.length) - xs.length - 1) none) := by
      simp only [placement_new, Block.is_raw_mid (List.replicate xs.length none)
        (List.replicate (max 1 (2 * xs.length) - xs.length - 1) none) xs.length (by simp), ha,
        if_true, Block.assign_mid (List.replicate xs.length none)
        (List.replicate (max 1 (2 * xs.length) - xs.length - 1) none) none x xs.length
        (by simp)]
    have hlen : xs.length = ys.length + 1 + zs.length := by
      rw [hxs]
      simp
      omega
    have hsrc : xs.map some = [] ++ ys.map some ++ some z :: zs.map some := by
      rw [hxs]
      simp
    have hdst : List.replicate xs.length (none : Option α)
        ++ some x :: List.replicate (max 1 (2 * xs.length) - xs.length - 1) none
        = [] ++ List.replicate (ys.length + 1) none
          ++ (List.replicate zs.length none
            ++ some x :: List.replicate (max 1 (2 * xs.length) - xs.length - 1) none) := by
      have hr : List.replicate xs.length (none : Option α)
          = List.replicate (ys.length + 1) none ++ List.replicate zs.length none := by
        rw [hlen, List.replicate_add]
      rw [hr, List.nil_append, List.append_assoc]
    have hcp := std.uninitialized_copy_n_fails (T := T) e z hz ys hys [] (zs.map some) []
      (List.replicate zs.length none
        ++ some x :: List.replicate (max 1 (2 * xs.length) - xs.length - 1) none)
      0 0 zs.length rfl rfl
    have hd : Vector.Destroy (List.replicate xs.length (none : Option α)
        ++ some x :: List.replicate (max 1 (2 * xs.length) - xs.length - 1) none) xs.length
        = some (List.replicate xs.length none
            ++ none :: List.replicate (max 1 (2 * xs.length) - xs.length - 1) none) :=
      Vector.Destroy_mid (List.replicate xs.length none) _ x xs.length (by simp)
    simp only [Vector.EmplaceBack, RawMemory.Capacity, if_true, P.double_cap _ hlt,
      RawMemory.ctor_capacity_granted P T _ (by omega) hs hfit hnew]
    simp only [RawMemory.GetAddress, Option.getD_some]
    rw [Block.replicate_split (max 1 (2 * xs.length)) xs.length (by omega), hp]
    simp only [hflag, Bool.false_eq_true, if_false, hold, Block.of_full xs]
    rw [← hdst, ← hsrc, ← hlen] at hcp
    rw [hcp]
    simp only [hd]
    exact ⟨_, rfl⟩
  obtain ⟨s, hs1⟩ := key
  rw [hs1, Vector.EmplaceBack_threw_copy P T v a hflag _ s hs1]

/-- A Reserve beyond the capacity of an array of a copy-transferred type throws
the element's exception and leaves the array as it was when the copy of one of the
elements fails. -/
theorem Vector.Reserve_copy_fails (P : Platform) (T : ElemType α ε) (v : Vector α)
    (xs : List α) (cap n : Nat)
    (hflag : (T.is_nothrow_move_constructible || !T.is_copy_constructible) = false)
    (hv : v.Holds xs cap) (hn : cap < n) (hs : 0 < T.sizeof)
    (hfit : n * T.sizeof < 2 ^ P.word_bits) (hnew : P.operator_new (n * T.sizeof) = true)
    (ys zs : List α) (z : α) (e : ε) (hxs : xs = ys ++ z :: zs)
    (hys : ∀ y ∈ ys, ∃ w, T.copy_ctor y = .ok w) (hz : T.copy_ctor z = .error e) :
    Vector.Reserve P T v n = .threw (.elem e) ⟨v, 0⟩ := by
  have key : ∃ s, Vector.Reserve P T v n = .threw (.elem e) s := by
    have hle := hv.1
    have hv1 := Vector.Holds.eq v xs cap hv
    subst hv1
    have hold := Block.getD_of xs cap hle
    have hlen : xs.length = ys.length + 1 + zs.length := by
      rw [hxs]
      simp
      omega
    have hsrc : Block.of xs cap
        = [] ++ ys.map some ++ some z :: (zs.map some ++ List.replicate (cap - xs.length) none) := by
      rw [Block.of, hxs]
      simp
    have hdst : List.replicate n (none : Option α)
        = [] ++ List.replicate (ys.length + 1) none ++ List.replicate (n - (ys.length + 1)) none := by
      rw [List.nil_append, ← List.replicate_add]
      congr 1
      omega
    have hcp := std.uninitialized_copy_n_fails (T := T) e z hz ys hys []
      (zs.map some ++ List.replicate (cap - xs.length) none) []
      (List.replicate (n - (ys.length + 1)) none) 0 0 zs.length rfl rfl
    rw [← hdst, ← hsrc, ← hlen] at hcp
    simp only [Vector.Reserve, RawMemory.Capacity, if_neg (Nat.not_le.mpr hn),
      RawMemory.ctor_capacity_granted P T n (by omega) hs hfit hnew]
    simp only [RawMemory.GetAddress, Option.getD_some, hflag, Bool.false_eq_true, if_false,
      hold, hcp]
    exact ⟨_, rfl⟩
  obtain ⟨s, hs1⟩ := key
  rw [hs1, Vector.Reserve_threw_copy P T v n hflag _ s hs1]

/-- When the loop of the copy constructor throws, the exception is the one a copy
constructor of the element type raised, and the slots the loop has filled are
exactly those before slot `i`. -/
theorem Vector.ctor_copy_loop_threw (other : Vector α) :
    ∀ (n : Nat) (A R : Block α) (i : Nat) (e : Exception ε) (st : Block α × Nat),
      i = A.length →
      Vector.ctor_copy_loop T other n (A ++ R) i = .threw e st →
      ∃ (ys : List α) (R2 : Block α), R = List.replicate ys.length none ++ R2 ∧
        st = (A ++ ys.map some ++ R2, i + ys.length) ∧ ys.length < n ∧ ∃ e1, e = .elem e1 := by
  intro n
  induction n with
  | zero =>
    intro A R i e st _ h
    simp [Vector.ctor_copy_loop] at h
  | succ n ih =>
    intro A R i e st hc h
    rw [Vector.ctor_copy_loop] at h
    cases hr : other.data_.GetAddress.read i with
    | none => rw [hr] at h; simp at h
    | some x =>
      rw [hr] at h
      simp only [Vector.CopyConstruct] at h
      cases hraw : Block.is_raw (A ++ R) i with
      | false => rw [hraw] at h; simp at h
      | true =>
        rw [hraw] at h
        simp only [if_true] at h
        obtain ⟨R1, hR1⟩ := Block.is_raw_split A R i hc hraw
        subst hR1
        cases hm : T.copy_ctor x with
        | error e1 =>
          rw [hm] at h
          simp only [Outcome.threw.injEq] at h
          refine ⟨[], none :: R1, by simp, ?_, by simp, e1, h.1.symm⟩
          rw [← h.2]
          simp
        | ok y =>
          rw [hm] at h
          simp only at h
          rw [Block.assign_mid A R1 none y i hc] at h
          have e1 : A ++ some y :: R1 = (A ++ [some y]) ++ R1 := by simp
          rw [e1] at h
          obtain ⟨ys, R2, hR, hst, hlen, he⟩ := ih (A ++ [some y]) R1 (i + 1) e st
            (by simp [hc]) h
          refine ⟨y :: ys, R2, ?_, ?_, by simp; omega, he⟩
          · rw [hR]
            simp [List.replicate_succ]
          · rw [hst]
            simp
            omega

/-- The loop of the copy constructor throws at the first element whose copy
fails, having filled the slots of the elements before it. -/
theorem Vector.ctor_copy_loop_fails (other : Vector α) (e : ε) (x : α)
    (hx : T.copy_ctor x = .error e) (ys : List α) :
    (∀ y ∈ ys, ∃ z, T.copy_ctor y = .ok z) →
    ∀ (A0 B0 A B : Block α) (i m : Nat),
      other.data_.GetAddress = A0 ++ ys.map some ++ some x :: B0 →
      i = A0.length → i = A.length →
      ∃ ws : List α, ws.length = ys.length ∧
        Vector.ctor_copy_loop T other (ys.length + 1 + m)
            (A ++ List.replicate (ys.length + 1) none ++ B) i
          = .threw (.elem e) (A ++ ws.map some ++ none :: B, i + ys.length) := by
  induction ys with
  | nil =>
    intro _ A0 B0 A B i m hsrc h1 h2
    refine ⟨[], rfl, ?_⟩
    have e0 : ([] : List α).length + 1 + m = m + 1 := by simp; omega
    rw [e0, Vector.ctor_copy_loop, hsrc]
    simp only [List.map_nil, List.append_nil, List.length_nil, Nat.zero_add,
      List.replicate_one, List.append_assoc, List.singleton_append, Nat.add_zero]
    rw [Block.read_mid A0 B0 x i h1]
    simp only [Vector.CopyConstruct, Block.is_raw_mid A B i h2, hx, if_true]
  | cons y ys ih =>
    intro hys A0 B0 A B i m hsrc h1 h2
    obtain ⟨w, hw⟩ := hys y (by simp)
    have e0 : (y :: ys).length + 1 + m = (ys.length + 1 + m) + 1 := by simp; omega
    have e1 : A0 ++ List.map some (y :: ys) ++ some x :: B0
        = A0 ++ some y :: (ys.map some ++ some x :: B0) := by simp
    have e2 : A ++ List.replicate ((y :: ys).length + 1) none ++ B
        = A ++ none :: (List.replicate (ys.length + 1) none ++ B) := by
      simp [List.replicate_succ]
    rw [e0, Vector.ctor_copy_loop, hsrc, e1, e2, Block.read_mid A0 _ y i h1]
    simp only [Vector.CopyConstruct, Block.is_raw_mid A _ i h2, hw,
      Block.assign_mid A _ none w i h2, if_true]
    have e4 : A ++ some w :: (List.replicate (ys.length + 1) none ++ B)
        = (A ++ [some w]) ++ List.replicate (ys.length + 1) none ++ B := by simp
    obtain ⟨ws, hws, hl⟩ := ih (fun y1 hy1 => hys y1 (by simp [hy1])) (A0 ++ [some y]) B0
      (A ++ [some w]) B (i + 1) m (by rw [hsrc]; simp) (by simp [h1]) (by simp [h2])
    refine ⟨w :: ws, by simp [hws], ?_⟩
    rw [e4, hl]
    simp [Nat.add_assoc, Nat.add_comm 1]

/-- `RawMemory(capacity)` throws only `std::bad_alloc`, and only when a block was
asked for and `operator new` refused it. -/
theorem RawMemory.ctor_capacity_error (P : Platform) (T : ElemType α ε) (c : Nat)
    (e : Exception ε) (h : RawMemory.ctor_capacity P T c = .error e) :
    e = .bad_alloc ∧ c ≠ 0 ∧ P.operator_new (P.wrap (c * T.sizeof)) = false := by
  unfold RawMemory.ctor_capacity RawMemory.Allocate at h
  by_cases hc : c ≠ 0
  · rw [if_pos hc] at h
    by_cases hn : P.operator_new (P.wrap (c * T.sizeof)) = true
    · rw [if_pos hn] at h
      simp at h
    · rw [if_neg hn] at h
      simp only [Except.error.injEq] at h
      exact ⟨h.symm, hc, by simpa using hn⟩
  · rw [if_neg hc] at h
    simp at h

/-- Whatever makes the copy constructor throw, it leaves nothing alive in the
storage it gives back, and what it throws is `std::bad_alloc` from the allocation
or `std::runtime_error(" ")`. -/
theorem Vector.ctor_copy_threw (P : Platform) (T : ElemType α ε) (other : Vector α)
    (e : Exception ε) (l : Nat) (h : Vector.ctor_copy P T other = .threw e l) :
    l = 0 ∧ (e = .bad_alloc ∨ e = .runtime_error " ") := by
  unfold Vector.ctor_copy at h
  cases hm : RawMemory.ctor_capacity P T other.size_ with
  | error e1 =>
    rw [hm] at h
    simp only [Outcome.threw.injEq] at h
    refine ⟨h.2.symm, Or.inl ?_⟩
    rw [← h.1]
    exact (RawMemory.ctor_capacity_error P T _ e1 hm).1
  | ok data =>
    rw [hm] at h
    simp only at h
    obtain ⟨_, L, hL⟩ := RawMemory.ctor_capacity_raw P T _ data hm
    rw [hL] at h
    cases hl : Vector.ctor_copy_loop T other other.size_ (List.replicate L none) 0 with
    | ub => rw [hl] at h; simp at h
    | ret u st => rw [hl] at h; simp at h
    | threw e1 st =>
      rw [hl] at h
      obtain ⟨ys, R2, hR, hst, _, _⟩ := Vector.ctor_copy_loop_threw other other.size_ []
        (List.replicate L none) 0 e1 st rfl (by simpa using hl)
      subst hst
      simp only [List.nil_append, Nat.zero_add] at h
      have hD := Vector.DestroyN_live ys [] R2 0 rfl
      simp only [List.nil_append] at hD
      rw [hD] at h
      simp only [Outcome.threw.injEq] at h
      refine ⟨?_, Or.inr h.1.symm⟩
      rw [← h.2, ← hR, RawMemory.dtor_put_raw]

/-- Copy construction from an array one of whose elements cannot be copied: the
loop stops at that element, the objects built before it are destroyed, the storage
is given back with nothing alive in it, and `std::runtime_error(" ")` is thrown. -/
theorem Vector.ctor_copy_fails (P : Platform) (T : ElemType α ε) (other : Vector α)
    (xs : List α) (cap : Nat) (hv : other.Holds xs cap) (hs : 0 < T.sizeof)
    (hfit : xs.length * T.sizeof < 2 ^ P.word_bits)
    (hnew : P.operator_new (xs.length * T.sizeof) = true)
    (ys zs : List α) (z : α) (e : ε) (hxs : xs = ys ++ z :: zs)
    (hys : ∀ y ∈ ys, ∃ w, T.copy_ctor y = .ok w) (hz : T.copy_ctor z = .error e) :
    ∃ ws : List α, ws.length = ys.length ∧
      Vector.ctor_copy_loop T other xs.length (List.replicate xs.length none) 0
        = .threw (.elem e) (ws.map some ++ List.replicate (xs.length - ys.length) none,
            ys.length) ∧
      Vector.DestroyN (ws.map some ++ List.replicate (xs.length - ys.length) none) 0 ys.length
        = some (List.replicate xs.length none) ∧
      Vector.ctor_copy P T other = .threw (.runtime_error " ") 0 := by
  have hle := hv.1
  have hv1 := Vector.Holds.eq other xs cap hv
  have hlen : xs.length = ys.length + 1 + zs.length := by
    rw [hxs]
    simp
    omega
  have hsrc : other.data_.GetAddress
      = [] ++ ys.map some ++ some z :: (zs.map some ++ List.replicate (cap - xs.length) none) := by
    rw [hv1]
    simp only [RawMemory.GetAddress]
    rw [Block.getD_of xs cap hle, Block.of, hxs]
    simp
  have hdst : List.replicate xs.length (none : Option α)
      = [] ++ List.replicate (ys.length + 1) none ++ List.replicate zs.length none := by
    rw [List.nil_append, ← List.replicate_add, hlen]
  obtain ⟨ws, hws, hl⟩ := Vector.ctor_copy_loop_fails (T := T) other e z hz ys hys []
    (zs.map some ++ List.replicate (cap - xs.length) none) [] (List.replicate zs.length none)
    0 zs.length hsrc rfl rfl
  have hst : [] ++ ws.map some ++ none :: List.replicate zs.length (none : Option α)
      = ws.map some ++ List.replicate (xs.length - ys.length) none := by
    have : xs.length - ys.length = zs.length + 1 := by omega
    rw [this, List.replicate_succ]
    simp
  rw [← hdst, ← hlen, hst, Nat.zero_add] at hl
  have hD : Vector.DestroyN (ws.map some ++ List.replicate (xs.length - ys.length) none) 0
      ys.length = some (List.replicate xs.length none) := by
    have := Vector.DestroyN_live ws [] (List.replicate (xs.length - ys.length) none) 0 rfl
    rw [hws] at this
    simp only [List.nil_append] at this
    rw [this, ← List.replicate_add]
    congr 2
    omega
  refine ⟨ws, hws, hl, hD, ?_⟩
  have hsz : other.size_ = xs.length := hv.2.1
  have hc0 : xs.length ≠ 0 := by omega
  simp only [Vector.ctor_copy, hsz,
    RawMemory.ctor_capacity_granted P T xs.length hc0 hs hfit hnew]
  simp only [RawMemory.GetAddress, Option.getD_some, hl, hD, RawMemory.dtor_put_raw]

/-- An append that throws leaves `size_` and `capacity_` as they were. -/
theorem Vector.EmplaceBack_threw_same (P : Platform) (T : ElemType α ε) (v : Vector α)
    (a : Arg α) (e : Exception ε) (s : Effect α)
    (h : Vector.EmplaceBack P T v a = .threw e s) :
    s.self.size_ = v.size_ ∧ s.self.data_.capacity_ = v.data_.capacity_ := by
  unfold Vector.EmplaceBack at h
  simp only [] at h
  repeat' split at h
  all_goals first
    | (simp only [Outcome.threw.injEq] at h; rw [← h.2]; exact ⟨rfl, rfl⟩)
    | simp at h

/-- An insertion that throws leaves `size_` and `capacity_` as they were. -/
theorem Vector.Emplace_threw_same (P : Platform) (T : ElemType α ε) (v : Vector α)
    (offset : Nat) (a : Arg α) (e : Exception ε) (s : Effect α)
    (h : Vector.Emplace P T v offset a = .threw e s) :
    s.self.size_ = v.size_ ∧ s.self.data_.capacity_ = v.data_.capacity_ := by
  unfold Vector.Emplace at h
  simp only [] at h
  repeat' split at h
  all_goals first
    | (simp only [Outcome.threw.injEq] at h; rw [← h.2]; exact ⟨rfl, rfl⟩)
    | simp at h

/-- An insertion that returns has incremented `size_`. -/
theorem Vector.Emplace_ret_size (P : Platform) (T : ElemType α ε) (v : Vector α)
    (offset : Nat) (a : Arg α) (r : Nat) (s : Effect α)
    (h : Vector.Emplace P T v offset a = .ret r s) :
    s.self.size_ = P.wrap (v.size_ + 1) := by
  unfold Vector.Emplace at h
  simp only [] at h
  repeat' split at h
  all_goals first
    | (simp only [Outcome.ret.injEq] at h; rw [← h.2])
    | simp at h

/-- A Reserve that throws leaves `size_` and `capacity_` as they were. -/
theorem Vector.Reserve_threw_same (P : Platform) (T : ElemType α ε) (v : Vector α)
    (n : Nat) (e : Exception ε) (s : Effect α)
    (h : Vector.Reserve P T v n = .threw e s) :
    s.self.size_ = v.size_ ∧ s.self.data_.capacity_ = v.data_.capacity_ := by
  unfold Vector.Reserve at h
  simp only [] at h
  repeat' split at h
  all_goals first
    | (simp only [Outcome.threw.injEq] at h; rw [← h.2]; exact ⟨rfl, rfl⟩)
    | simp at h

/-- A Reserve that returns leaves `size_` as it was, and the capacity as it was
when that was enough and equal to the request otherwise. -/
theorem Vector.Reserve_ret_same (P : Platform) (T : ElemType α ε) (v : Vector α)
    (n : Nat) (s : Effect α) (h : Vector.Reserve P T v n = .ret () s) :
    s.self.size_ = v.size_ ∧
      ((n ≤ v.data_.capacity_ ∧ s.self.data_.capacity_ = v.data_.capacity_) ∨
        (v.data_.capacity_ < n ∧ s.self.data_.capacity_ = n)) := by
  unfold Vector.Reserve at h
  by_cases hle : n ≤ v.data_.Capacity
  · rw [if_pos hle] at h
    simp only [Outcome.ret.injEq, true_and] at h
    rw [← h]
    exact ⟨rfl, Or.inl ⟨hle, rfl⟩⟩
  · rw [if_neg hle] at h
    cases hm : RawMemory.ctor_capacity P T n with
    | error e => rw [hm] at h; simp at h
    | ok new_data =>
      rw [hm] at h
      have hc := (RawMemory.ctor_capacity_raw P T n new_data hm).1
      simp only [] at h
      repeat' split at h
      all_goals first
        | (simp only [Outcome.ret.injEq, true_and] at h
           rw [← h]
           exact ⟨rfl, Or.inr ⟨Nat.lt_of_not_le hle, hc⟩⟩)
        | simp at h

/-- PopBack leaves the capacity, does not increase `size_`, and does nothing to an
empty array. -/
theorem Vector.PopBack_same (v v1 : Vector α) (h : Vector.PopBack v = some v1) :
    v1.size_ ≤ v.size_ ∧ v1.data_.capacity_ = v.data_.capacity_ := by
  unfold Vector.PopBack at h
  by_cases h0 : v.size_ = 0
  · rw [if_pos h0] at h
    simp only [Option.some.injEq] at h
    rw [← h]
    exact ⟨le_refl _, rfl⟩
  · rw [if_neg h0] at h
    cases hd : Vector.Destroy v.data_.GetAddress (v.size_ - 1) with
    | none => rw [hd] at h; simp at h
    | some b =>
      rw [hd] at h
      simp only [Option.some.injEq] at h
      rw [← h]
      exact ⟨Nat.sub_le _ _, rfl⟩

/-- An Erase that throws leaves `size_` and `capacity_` as they were; one that
returns has not increased `size_` and has left `capacity_`. -/
theorem Vector.Erase_same (T : ElemType α ε) (v : Vector α) (pos : Nat) :
    (∀ (e : Exception ε) (v1 : Vector α), Vector.Erase T v pos = .threw e v1 →
      v1.size_ = v.size_ ∧ v1.data_.capacity_ = v.data_.capacity_) ∧
    (∀ (r : Nat) (v1 : Vector α), Vector.Erase T v pos = .ret r v1 →
      v1.size_ ≤ v.size_ ∧ v1.data_.capacity_ = v.data_.capacity_) := by
  refine ⟨?_, ?_⟩
  · intro e v1 h
    unfold Vector.Erase Vector.PopBack at h
    simp only [] at h
    repeat' split at h
    all_goals first
      | (simp only [Outcome.threw.injEq] at h; rw [← h.2]; exact ⟨rfl, rfl⟩)
      | simp at h
  · intro r v1 h
    unfold Vector.Erase at h
    cases hmv : std.move T v.data_.GetAddress (pos + 1) v.end_ pos with
    | ub => rw [hmv] at h; simp at h
    | threw e b => rw [hmv] at h; simp at h
    | ret u b =>
      rw [hmv] at h
      simp only [] at h
      cases hp : Vector.PopBack { v with data_ := v.data_.put b } with
      | none => rw [hp] at h; simp at h
      | some v2 =>
        rw [hp] at h
        simp only [Outcome.ret.injEq] at h
        rw [← h.2]
        have hps := Vector.PopBack_same { v with data_ := v.data_.put b } v2 hp
        exact hps
theorem Vector.ctor_size_ret_same (P : Platform) (T : ElemType α ε) (n : Nat) (v : Vector α)
    (l : Nat) (h : Vector.ctor_size P T n = .ret v l) :
    v.size_ = n ∧ v.data_.capacity_ = n := by
  unfold Vector.ctor_size at h
  cases hm : RawMemory.ctor_capacity P T n with
  | error e => rw [hm] at h; simp at h
  | ok data =>
    rw [hm] at h
    have hc := (RawMemory.ctor_capacity_raw P T n data hm).1
    simp only [] at h
    repeat' split at h
    all_goals first
      | (simp only [Outcome.ret.injEq] at h; rw [← h.1]; exact ⟨rfl, hc⟩)
      | simp at h

theorem Vector.ctor_copy_ret_same (P : Platform) (T : ElemType α ε) (other v : Vector α)
    (l : Nat) (h : Vector.ctor_copy P T other = .ret v l) :
    v.size_ = other.size_ ∧ v.data_.capacity_ = other.size_ := by
  unfold Vector.ctor_copy at h
  cases hm : RawMemory.ctor_capacity P T other.size_ with
  | error e => rw [hm] at h; simp at h
  | ok data =>
    rw [hm] at h
    have hc := (RawMemory.ctor_capacity_raw P T _ data hm).1
    simp only [] at h
    repeat' split at h
    all_goals first
      | (simp only [Outcome.ret.injEq] at h; rw [← h.1]; exact ⟨rfl, hc⟩)
      | simp at h

/-- Resize keeps the size within the capacity, whether it returns or throws. -/
theorem Vector.Resize_inv (P : Platform) (T : ElemType α ε) (v : Vector α) (n : Nat)
    (hv : v.Inv) :
    (Vector.Resize P T v n).Sat (fun _ s => s.self.Inv) (fun _ s => s.self.Inv) := by
  have hv1 : v.size_ ≤ v.data_.capacity_ := hv
  cases hR : Vector.Resize P T v n with
  | ub => trivial
  | ret u s =>
    show s.self.size_ ≤ s.self.data_.capacity_
    unfold Vector.Resize at hR
    by_cases hn : n > v.size_
    · rw [if_pos hn] at hR
      cases hr : Vector.Reserve P T v n with
      | ub => rw [hr] at hR; simp at hR
      | threw e s1 => rw [hr] at hR; simp at hR
      | ret u1 s1 =>
        rw [hr] at hR
        obtain ⟨_, h2⟩ := Vector.Reserve_ret_same P T v n s1 hr
        simp only [] at hR
        repeat' split at hR
        all_goals first
          | (simp only [Outcome.ret.injEq, true_and] at hR
             rw [← hR]
             show n ≤ s1.self.data_.capacity_
             omega)
          | simp at hR
    · rw [if_neg hn] at hR
      repeat' split at hR
      all_goals first
        | (simp only [Outcome.ret.injEq, true_and] at hR
           rw [← hR]
           show n ≤ v.data_.capacity_
           omega)
        | simp at hR
  | threw e s =>
    show s.self.size_ ≤ s.self.data_.capacity_
    unfold Vector.Resize at hR
    by_cases hn : n > v.size_
    · rw [if_pos hn] at hR
      cases hr : Vector.Reserve P T v n with
      | ub => rw [hr] at hR; simp at hR
      | threw e1 s1 =>
        rw [hr] at hR
        simp only [Outcome.threw.injEq] at hR
        obtain ⟨h1, h2⟩ := Vector.Reserve_threw_same P T v n e1 s1 hr
        rw [← hR.2, h1, h2]
        exact hv1
      | ret u1 s1 =>
        rw [hr] at hR
        obtain ⟨h1, h2⟩ := Vector.Reserve_ret_same P T v n s1 hr
        simp only [] at hR
        repeat' split at hR
        all_goals first
          | (simp only [Outcome.threw.injEq] at hR
             rw [← hR.2]
             show s1.self.size_ ≤ s1.self.data_.capacity_
             omega)
          | simp at hR
    · rw [if_neg hn] at hR
      repeat' split at hR
      all_goals simp at hR

/-- Copy assignment keeps the size within the capacity, whether it returns or
throws. -/
theorem Vector.assign_copy_inv (P : Platform) (T : ElemType α ε) (self : Vector α)
    (rhs : Option (Vector α)) (hv : self.Inv) :
    (Vector.assign_copy P T self rhs).Sat (fun _ s => s.self.Inv) (fun _ s => s.self.Inv) := by
  have hv1 : self.size_ ≤ self.data_.capacity_ := hv
  cases hR : Vector.assign_copy P T self rhs with
  | ub => trivial
  | ret u s =>
    show s.self.size_ ≤ s.self.data_.capacity_
    unfold Vector.assign_copy at hR
    cases rhs with
    | none =>
      simp only [Outcome.ret.injEq, true_and] at hR
      rw [← hR]
      exact hv1
    | some r =>
      simp only [] at hR
      by_cases hle : r.size_ ≤ self.data_.Capacity
      · rw [if_pos hle] at hR
        repeat' split at hR
        all_goals first
          | (simp only [Outcome.ret.injEq, true_and] at hR
             rw [← hR]
             exact hle)
          | simp at hR
      · rw [if_neg hle] at hR
        cases hc : Vector.ctor_copy P T r with
        | ub => rw [hc] at hR; simp at hR
        | threw e l => rw [hc] at hR; simp at hR
        | ret temp l =>
          rw [hc] at hR
          obtain ⟨h1, h2⟩ := Vector.ctor_copy_ret_same P T r temp l hc
          simp only [] at hR
          repeat' split at hR
          all_goals first
            | (simp only [Outcome.ret.injEq, true_and] at hR
               rw [← hR]
               show temp.size_ ≤ temp.data_.capacity_
               omega)
            | simp at hR
  | threw e s =>
    show s.self.size_ ≤ s.self.data_.capacity_
    unfold Vector.assign_copy at hR
    cases rhs with
    | none => simp at hR
    | some r =>
      simp only [] at hR
      repeat' split at hR
      all_goals first
        | (simp only [Outcome.threw.injEq] at hR
           rw [← hR.2]
           exact hv1)
        | simp at hR

/-- Inserting into an empty array that has spare capacity returns and leaves the
capacity as it was. -/
theorem Vector.Emplace_empty_spare_ret (P : Platform) (hT : T.NoFail) (v : Vector α)
    (cap : Nat) (a : Arg α) (hv : v.Holds [] cap) (hc : 0 < cap) :
    ∃ s, Vector.Emplace P T v 0 a = .ret 0 s ∧ s.self.Capacity = cap := by
  have hv1 := Vector.Holds.eq v [] cap hv
  subst hv1
  have hc0 : cap ≠ 0 := by omega
  obtain ⟨a1, ha1⟩ := hT.construct a
  obtain ⟨a2, ha2⟩ := placement_new_ok hT [] (List.replicate (cap - 1) none) 0 a1 rfl
  have hblk : Block.of ([] : List α) cap = [] ++ none :: List.replicate (cap - 1) none := by
    have := Block.of_spare ([] : List α) cap (by simpa using hc)
    simpa using this
  refine ⟨⟨{ data_ := { buffer_ := some ([] ++ some a1.value
                                     :: List.replicate (cap - 1) none),
                           capacity_ := cap },
               size_ := P.wrap (0 + 1) }, 0⟩, ?_, ?_⟩
  · simp only [Vector.Emplace, Vector.Capacity, RawMemory.Capacity, List.length_nil,
      ne_eq, Ne.symm hc0, not_false_eq_true, if_true, ha1, not_true_eq_false, if_false,
      RawMemory.GetAddress, if_neg hc0, Option.getD_some]
    rw [hblk, ha2]
    simp [RawMemory.put]
  · rfl

theorem int_elem_nofail : int_elem.NoFail where
  sizeof_pos := by decide
  value_ctor := ⟨0, rfl⟩
  copy_ctor := fun _ => rfl
  move_ctor := fun x => ⟨x, rfl⟩
  copy_assign := fun _ _ => rfl
  move_assign := fun d x => ⟨x, rfl⟩

theorem string_elem_nofail : string_elem.NoFail where
  sizeof_pos := by decide
  value_ctor := ⟨"", rfl⟩
  copy_ctor := fun _ => rfl
  move_ctor := fun _ => ⟨"", rfl⟩
  copy_assign := fun _ _ => rfl
  move_assign := fun _ _ => ⟨"", rfl⟩

theorem ints_full_holds : ints_full.Holds [1, 2] 2 := ⟨by decide, rfl, rfl, rfl⟩

theorem ints_one_holds : ints_one.Holds [1] 2 := ⟨by decide, rfl, rfl, rfl⟩

/-- C2: when EmplaceBack, PushBack, Emplace or Insert returns normally on an
array whose size is a size_t value, the capacity afterwards is max(1, 2 * old
capacity) if size equalled capacity before the call, and the old capacity if size
was below it. Along a run of appends that all return, capacity never decreases.
The operations do return with that capacity: when no element operation fails and,
for a full array, the block of max(1, 2 * capacity) elements is granted,
EmplaceBack and both PushBack return on every array, and Emplace and both Insert
return at every position of a full array, at every position before the end of an
array with spare capacity, and on an empty array with spare capacity. -/
theorem C2_growth_capacity (P : Platform) (T : ElemType α ε) (v : Vector α)
    (hsz : v.size_ < 2 ^ P.word_bits) :
    (∀ (a : Arg α) (r : Nat) (s : Effect α), Vector.EmplaceBack P T v a = .ret r s →
        (v.Size = v.Capacity → s.self.Capacity = max 1 (2 * v.Capacity)) ∧
        (v.Size < v.Capacity → s.self.Capacity = v.Capacity)) ∧
    (∀ (x : α) (s : Effect α),
        (Vector.PushBack_copy P T v x = .ret () s ∨ Vector.PushBack_move P T v x = .ret () s) →
        (v.Size = v.Capacity → s.self.Capacity = max 1 (2 * v.Capacity)) ∧
        (v.Size < v.Capacity → s.self.Capacity = v.Capacity)) ∧
    (∀ (pos : Nat) (a : Arg α) (r : Nat) (s : Effect α), Vector.Emplace P T v pos a = .ret r s →
        (v.Size = v.Capacity → s.self.Capacity = max 1 (2 * v.Capacity)) ∧
        (v.Size < v.Capacity → s.self.Capacity = v.Capacity)) ∧
    (∀ (pos : Nat) (x : α) (r : Nat) (s : Effect α),
        (Vector.Insert_copy P T v pos x = .ret r s ∨ Vector.Insert_move P T v pos x = .ret r s) →
        (v.Size = v.Capacity → s.self.Capacity = max 1 (2 * v.Capacity)) ∧
        (v.Size < v.Capacity → s.self.Capacity = v.Capacity)) ∧
    (∀ (as : List (Arg α)) (v1 : Vector α), Vector.appends P T v as = .ret () v1 →
        v.Capacity ≤ v1.Capacity) ∧
    (T.NoFail → ∀ (xs : List α) (cap : Nat), v.Holds xs cap → cap < 2 ^ P.word_bits →
      (xs.length = cap →
        max 1 (2 * cap) * T.sizeof < 2 ^ P.word_bits ∧
          P.operator_new (max 1 (2 * cap) * T.sizeof) = true) →
      (∀ a : Arg α, ∃ r s, Vector.EmplaceBack P T v a = .ret r s ∧
        s.self.Capacity = if xs.length = cap then max 1 (2 * cap) else cap) ∧
      (∀ x : α, ∃ s, Vector.PushBack_copy P T v x = .ret () s ∧
        s.self.Capacity = if xs.length = cap then max 1 (2 * cap) else cap) ∧
      (∀ x : α, ∃ s, Vector.PushBack_move P T v x = .ret () s ∧
        s.self.Capacity = if xs.length = cap then max 1 (2 * cap) else cap) ∧
      (∀ (pos : Nat) (a : Arg α), pos ≤ xs.length →
        (xs.length = cap ∨ pos < xs.length ∨ xs.length = 0) →
        ∃ r s, Vector.Emplace P T v pos a = .ret r s ∧
          s.self.Capacity = if xs.length = cap then max 1 (2 * cap) else cap) ∧
      (∀ (pos : Nat) (x : α), pos ≤ xs.length →
        (xs.length = cap ∨ pos < xs.length ∨ xs.length = 0) →
        (∃ r s, Vector.Insert_copy P T v pos x = .ret r s ∧
          s.self.Capacity = if xs.length = cap then max 1 (2 * cap) else cap) ∧
        (∃ r s, Vector.Insert_move P T v pos x = .ret r s ∧
          s.self.Capacity = if xs.length = cap then max 1 (2 * cap) else cap))) := by
  have hEB : ∀ (a : Arg α) (r : Nat) (s : Effect α), Vector.EmplaceBack P T v a = .ret r s →
      (v.Size = v.Capacity → s.self.Capacity = max 1 (2 * v.Capacity)) ∧
      (v.Size < v.Capacity → s.self.Capacity = v.Capacity) := by
    intro a r s h
    have h1 := (Vector.EmplaceBack_ret_capacity P T v a r s hsz h).1
    unfold Vector.Size
    constructor
    · intro he
      rw [h1, if_pos he]
    · intro hl
      rw [h1, if_neg (by omega)]
  have hEm : ∀ (pos : Nat) (a : Arg α) (r : Nat) (s : Effect α),
      Vector.Emplace P T v pos a = .ret r s →
      (v.Size = v.Capacity → s.self.Capacity = max 1 (2 * v.Capacity)) ∧
      (v.Size < v.Capacity → s.self.Capacity = v.Capacity) := by
    intro pos a r s h
    have h1 := Vector.Emplace_ret_capacity P T v pos a r s hsz h
    unfold Vector.Size
    constructor
    · intro he
      rw [h1, if_pos he]
    · intro hl
      rw [h1, if_neg (by omega)]
  refine ⟨hEB, ?_, hEm, ?_, ?_, ?_⟩
  · intro x s h
    rcases h with h | h
    · unfold Vector.PushBack_copy at h
      cases he : Vector.EmplaceBack P T v (.lvalue x) with
      | ub => rw [he] at h; cases h
      | threw e s1 => rw [he] at h; cases h
      | ret r s1 =>
        rw [he] at h
        cases h
        exact hEB _ _ _ he
    · unfold Vector.PushBack_move at h
      cases he : Vector.EmplaceBack P T v (.rvalue x) with
      | ub => rw [he] at h; cases h
      | threw e s1 => rw [he] at h; cases h
      | ret r s1 =>
        rw [he] at h
        cases h
        exact hEB _ _ _ he
  · intro pos x r s h
    rcases h with h | h
    · exact hEm pos (.lvalue x) r s h
    · exact hEm pos (.rvalue x) r s h
  · intro as v1 h
    exact Vector.appends_ret_capacity P T as v v1 hsz h
  · intro hT xs cap hv hcap hroom
    have hEBr : ∀ a : Arg α, ∃ r s, Vector.EmplaceBack P T v a = .ret r s ∧
        s.self.Capacity = if xs.length = cap then max 1 (2 * cap) else cap := by
      intro a
      obtain ⟨v1, h1, hv1⟩ := Vector.EmplaceBack_ok P hT v xs cap a hv hcap hroom
      exact ⟨xs.length, ⟨v1, 0⟩, h1, hv1.2.2.1⟩
    have hEmr : ∀ (pos : Nat) (a : Arg α), pos ≤ xs.length →
        (xs.length = cap ∨ pos < xs.length ∨ xs.length = 0) →
        ∃ r s, Vector.Emplace P T v pos a = .ret r s ∧
          s.self.Capacity = if xs.length = cap then max 1 (2 * cap) else cap := by
      intro pos a hpos hdom
      by_cases hd : xs.length = cap ∨ pos < xs.length
      · obtain ⟨v1, h1, hv1⟩ := Vector.Emplace_ok P hT v xs cap a pos hv hpos hd hcap hroom
        exact ⟨pos, ⟨v1, 0⟩, h1, hv1.2.2.1⟩
      · have h0 : xs.length = 0 := by omega
        have hne : xs.length ≠ cap := fun h => hd (Or.inl h)
        have hnil : xs = [] := List.length_eq_zero.mp h0
        have hp0 : pos = 0 := by omega
        subst hnil
        subst hp0
        obtain ⟨s, h1, h2⟩ := Vector.Emplace_empty_spare_ret P hT v cap a hv
          (by simp at hne; omega)
        exact ⟨0, s, h1, by rw [h2, if_neg hne]⟩
    refine ⟨hEBr, ?_, ?_, hEmr, ?_⟩
    · intro x
      obtain ⟨r, s, h1, h2⟩ := hEBr (.lvalue x)
      exact ⟨s, by simp only [Vector.PushBack_copy, h1], h2⟩
    · intro x
      obtain ⟨r, s, h1, h2⟩ := hEBr (.rvalue x)
      exact ⟨s, by simp only [Vector.PushBack_move, h1], h2⟩
    · intro pos x hpos hdom
      exact ⟨hEmr pos (.lvalue x) hpos hdom, hEmr pos (.rvalue x) hpos hdom⟩

theorem C2_growth_capacity_witness :
    ints_full.size_ < 2 ^ Platform.lp64.word_bits ∧
    Vector.EmplaceBack Platform.lp64 int_elem ints_full (.lvalue 3)
      = .ret 2 ⟨{ data_ := { buffer_ := some [some 1, some 2, some 3, none], capacity_ := 4 },
                  size_ := 3 }, 0⟩ ∧
    (ints_full.Size = ints_full.Capacity →
      (4 : Nat) = max 1 (2 * ints_full.Capacity)) ∧
    ints_full.Holds [1, 2] 2 ∧
    Vector.Emplace Platform.lp64 int_elem ints_full 1 (.lvalue 9)
      = .ret 1 ⟨{ data_ := { buffer_ := some [some 1, some 9, some 2, none], capacity_ := 4 },
                  size_ := 3 }, 0⟩ ∧
    (∃ r s, Vector.Emplace Platform.lp64 int_elem ints_full 1 (.lvalue 9) = .ret r s ∧
      s.self.Capacity = if ([1, 2] : List Int).length = 2 then max 1 (2 * 2) else 2) ∧
    (∃ r s, Vector.Insert_move Platform.lp64 int_elem ints_full 2 9 = .ret r s ∧
      s.self.Capacity = if ([1, 2] : List Int).length = 2 then max 1 (2 * 2) else 2) :=
  ⟨by decide, rfl,
   ((C2_growth_capacity Platform.lp64 int_elem ints_full (by decide)).1 (.lvalue 3) 2
      ⟨{ data_ := { buffer_ := some [some 1, some 2, some 3, none], capacity_ := 4 },
         size_ := 3 }, 0⟩ rfl).1,
   ints_full_holds, rfl,
   ((C2_growth_capacity Platform.lp64 int_elem ints_full (by decide)).2.2.2.2.2
      int_elem_nofail [1, 2] 2 ints_full_holds (by decide)
      (fun _ => ⟨by decide, rfl⟩)).2.2.2.1 1 (.lvalue 9) (by decide) (Or.inl rfl),
   (((C2_growth_capacity Platform.lp64 int_elem ints_full (by decide)).2.2.2.2.2
      int_elem_nofail [1, 2] 2 ints_full_holds (by decide)
      (fun _ => ⟨by decide, rfl⟩)).2.2.2.2 2 9 (by decide) (Or.inl rfl)).2⟩

/-- C3 (the code departs from the claim): inserting at the end of a non-empty
array that has spare capacity hands std::move_backward the range [size, size - 1),
whose first bound lies behind its last bound, which is undefined behaviour: for
the array [1] of capacity 2, Insert(end(), 2) does not produce [1, 2]. -/
theorem C3_insert_at_end_with_spare_capacity :
    ints_one.Holds [1] 2 ∧
    Vector.Insert_copy Platform.lp64 int_elem ints_one 1 2 = .ub ∧
    Vector.Insert_move Platform.lp64 int_elem ints_one 1 2 = .ub := by
  exact ⟨⟨by decide, rfl, rfl, rfl⟩, rfl, rfl⟩

/-- C8: move construction gives the new array the buffer (hence the contents),
the size and the capacity the source had, and leaves the source with a null
buffer, capacity 0 and size 0. -/
theorem C8_move_construct (other : Vector α) :
    (Vector.ctor_move other).1 = other ∧
    (Vector.ctor_move other).2.Size = 0 ∧
    (Vector.ctor_move other).2.Capacity = 0 ∧
    (Vector.ctor_move other).2.data_.buffer_ = none ∧
    (Vector.ctor_move other).2.Holds [] 0 := by
  refine ⟨rfl, rfl, rfl, rfl, ?_⟩
  exact ⟨le_refl _, rfl, rfl, rfl⟩

/-- C10: Swap(a, b) leaves a with the buffer, size and capacity b had and b with
those a had; move assignment a = std::move(b) does the same for two different
arrays and nothing when b is a itself. Neither takes the element type as a
parameter nor has a failing outcome, so no element is constructed, destroyed or
assigned and neither can fail. Swapping twice gives back both arrays. -/
theorem C10_swap_move_assign (a b : Vector α) :
    Vector.Swap a b = (b, a) ∧
    Vector.assign_move a (some b) = (b, some a) ∧
    Vector.assign_move a none = (a, none) ∧
    Vector.Swap (Vector.Swap a b).1 (Vector.Swap a b).2 = (a, b) := by
  exact ⟨rfl, rfl, rfl, rfl⟩

/-- C11: for an element type that is transferred by copying (its move constructor
may throw and it is copy-constructible), whenever EmplaceBack, PushBack or Reserve
throws, the array is exactly as it was before the call (same size, capacity and
contents) and the new storage has been given back with no object left alive in it,
without undefined behaviour on the way. On a full array a failing construction of
the appended element, and a failing copy of the k-th element for any k (the
elements before it having been copied), make the append throw that very exception;
the same holds for Reserve(n) with n above the capacity. -/
theorem C11_strong_guarantee_when_copying (P : Platform) (T : ElemType α ε)
    (hflag : (T.is_nothrow_move_constructible || !T.is_copy_constructible) = false)
    (v : Vector α) :
    (∀ (a : Arg α) (e : Exception ε) (s : Effect α),
        Vector.EmplaceBack P T v a = .threw e s → s = ⟨v, 0⟩) ∧
    (∀ (x : α) (e : Exception ε) (s : Effect α),
        (Vector.PushBack_copy P T v x = .threw e s ∨ Vector.PushBack_move P T v x = .threw e s) →
        s = ⟨v, 0⟩) ∧
    (∀ (n : Nat) (e : Exception ε) (s : Effect α),
        Vector.Reserve P T v n = .threw e s → s = ⟨v, 0⟩) ∧
    (∀ xs : List α, v.Holds xs xs.length → 0 < T.sizeof →
        max 1 (2 * xs.length) * T.sizeof < 2 ^ P.word_bits →
        P.operator_new (max 1 (2 * xs.length) * T.sizeof) = true →
        (∀ (a : Arg α) (e : ε), T.construct a = .error e →
          Vector.EmplaceBack P T v a = .threw (.elem e) ⟨v, 0⟩) ∧
        (∀ (a : Arg α) (x : α) (a1 : Arg α) (ys zs : List α) (z : α) (e : ε),
          T.construct a = .ok (x, a1) → xs = ys ++ z :: zs →
          (∀ y ∈ ys, ∃ w, T.copy_ctor y = .ok w) → T.copy_ctor z = .error e →
          Vector.EmplaceBack P T v a = .threw (.elem e) ⟨v, 0⟩)) ∧
    (∀ (xs : List α) (cap n : Nat), v.Holds xs cap → cap < n → 0 < T.sizeof →
        n * T.sizeof < 2 ^ P.word_bits → P.operator_new (n * T.sizeof) = true →
        ∀ (ys zs : List α) (z : α) (e : ε), xs = ys ++ z :: zs →
          (∀ y ∈ ys, ∃ w, T.copy_ctor y = .ok w) → T.copy_ctor z = .error e →
          Vector.Reserve P T v n = .threw (.elem e) ⟨v, 0⟩) := by
  refine ⟨fun a => Vector.EmplaceBack_threw_copy P T v a hflag, ?_,
    fun n => Vector.Reserve_threw_copy P T v n hflag, ?_, ?_⟩
  · intro x e s h
    rcases h with h | h
    · unfold Vector.PushBack_copy at h
      cases hE : Vector.EmplaceBack P T v (.lvalue x) with
      | ub => rw [hE] at h; simp at h
      | ret r s1 => rw [hE] at h; simp at h
      | threw e1 s1 =>
        rw [hE] at h
        simp only [Outcome.threw.injEq] at h
        rw [← h.2]
        exact Vector.EmplaceBack_threw_copy P T v _ hflag e1 s1 hE
    · unfold Vector.PushBack_move at h
      cases hE : Vector.EmplaceBack P T v (.rvalue x) with
      | ub => rw [hE] at h; simp at h
      | ret r s1 => rw [hE] at h; simp at h
      | threw e1 s1 =>
        rw [hE] at h
        simp only [Outcome.threw.injEq] at h
        rw [← h.2]
        exact Vector.EmplaceBack_threw_copy P T v _ hflag e1 s1 hE
  · intro xs hv hs hfit hnew
    exact ⟨fun a e ha => Vector.EmplaceBack_construct_fails P T v xs a hv hs hfit hnew e ha,
      fun a x a1 ys zs z e ha hxs hys hz =>
        Vector.EmplaceBack_copy_fails P T v xs a hflag hv hs hfit hnew x a1 ha ys zs z e hxs hys hz⟩
  · intro xs cap n hv hn hs hfit hnew ys zs z e hxs hys hz
    exact Vector.Reserve_copy_fails P T v xs cap n hflag hv hn hs hfit hnew ys zs z e hxs hys hz

theorem C11_strong_guarantee_when_copying_witness :
    (fragile_elem.is_nothrow_move_constructible || !fragile_elem.is_copy_constructible) = false ∧
    (fragile_full [1, 13, 3]).Holds [1, 13, 3] 3 ∧
    Vector.EmplaceBack Platform.lp64 fragile_elem (fragile_full [1, 13, 3]) (.lvalue 5)
      = .threw (.elem "copy of 13") ⟨fragile_full [1, 13, 3], 0⟩ ∧
    Vector.EmplaceBack Platform.lp64 fragile_elem (fragile_full [1, 13, 3]) (.lvalue 13)
      = .threw (.elem "copy of 13") ⟨fragile_full [1, 13, 3], 0⟩ ∧
    Vector.Reserve Platform.lp64 fragile_elem (fragile_full [1, 13, 3]) 10
      = .threw (.elem "copy of 13") ⟨fragile_full [1, 13, 3], 0⟩ :=
  ⟨rfl, ⟨by decide, rfl, rfl, rfl⟩,
   ((C11_strong_guarantee_when_copying Platform.lp64 fragile_elem rfl
      (fragile_full [1, 13, 3])).2.2.2.1 [1, 13, 3] ⟨by decide, rfl, rfl, rfl⟩ (by decide)
      (by decide) rfl).2 (.lvalue 5) 5 (.lvalue 5) [1] [3] 13 "copy of 13" rfl rfl
      (by intro y hy; simp at hy; subst hy; exact ⟨1, rfl⟩) rfl,
   ((C11_strong_guarantee_when_copying Platform.lp64 fragile_elem rfl
      (fragile_full [1, 13, 3])).2.2.2.1 [1, 13, 3] ⟨by decide, rfl, rfl, rfl⟩ (by decide)
      (by decide) rfl).1 (.lvalue 13) "copy of 13" rfl,
   (C11_strong_guarantee_when_copying Platform.lp64 fragile_elem rfl
      (fragile_full [1, 13, 3])).2.2.2.2 [1, 13, 3] 3 10 ⟨by decide, rfl, rfl, rfl⟩ (by decide)
      (by decide) (by decide) rfl [1] [3] 13 "copy of 13" rfl
      (by intro y hy; simp at hy; subst hy; exact ⟨1, rfl⟩) rfl⟩

/-- C12 (the code departs from the claim): the handler of the reallocating branch
of Emplace destroys the first `offset` slots of the new storage whatever step
failed, and the old elements are moved, not copied. For a full array of
`fragile_elem`: when the move of the prefix fails at its first element, the
handler destroys a slot in which nothing was constructed (undefined behaviour);
when the move of the suffix fails, the new element stays alive in the storage that
is given back (one object leaked) and the old first element is left moved-from;
when the construction of the new element fails, the old prefix is left
moved-from. -/
theorem C12_emplace_reallocating_failure :
    (fragile_full [13, 2]).Holds [13, 2] 2 ∧
    Vector.Emplace Platform.lp64 fragile_elem (fragile_full [13, 2]) 1 (.lvalue 5) = .ub ∧
    (fragile_full [1, 13]).Holds [1, 13] 2 ∧
    Vector.Emplace Platform.lp64 fragile_elem (fragile_full [1, 13]) 0 (.lvalue 5)
      = .threw (.elem "move of 13")
          ⟨{ data_ := { buffer_ := some [some 0, some 13], capacity_ := 2 }, size_ := 2 }, 1⟩ ∧
    (fragile_full [1, 2]).Holds [1, 2] 2 ∧
    Vector.Emplace Platform.lp64 fragile_elem (fragile_full [1, 2]) 1 (.lvalue 13)
      = .threw (.elem "copy of 13")
          ⟨{ data_ := { buffer_ := some [some 0, some 2], capacity_ := 2 }, size_ := 2 }, 0⟩ := by
  exact ⟨⟨by decide, rfl, rfl, rfl⟩, rfl, ⟨by decide, rfl, rfl, rfl⟩, rfl,
    ⟨by decide, rfl, rfl, rfl⟩, rfl⟩

/-- C13: whenever the copy constructor throws, nothing it constructed stays alive
in the storage it gives back (no leak), without any object being destroyed twice.
When the source holds xs and the copy of the element at position k fails (those
before it having been copied), the loop stops with exactly the k slots before
position k filled, DestroyN destroys exactly those k objects and leaves the whole
block raw, the storage is released, and the constructor throws instead of
returning. The source is passed by const reference and is not changed. -/
theorem C13_copy_construct_failure_cleans_up (P : Platform) (T : ElemType α ε)
    (other : Vector α) :
    (∀ (e : Exception ε) (l : Nat), Vector.ctor_copy P T other = .threw e l → l = 0) ∧
    (∀ (xs : List α) (cap : Nat), other.Holds xs cap → 0 < T.sizeof →
      xs.length * T.sizeof < 2 ^ P.word_bits →
      P.operator_new (xs.length * T.sizeof) = true →
      ∀ (ys zs : List α) (z : α) (e : ε), xs = ys ++ z :: zs →
        (∀ y ∈ ys, ∃ w, T.copy_ctor y = .ok w) → T.copy_ctor z = .error e →
        ∃ ws : List α, ws.length = ys.length ∧
          Vector.ctor_copy_loop T other xs.length (List.replicate xs.length none) 0
            = .threw (.elem e) (ws.map some ++ List.replicate (xs.length - ys.length) none,
                ys.length) ∧
          Vector.DestroyN (ws.map some ++ List.replicate (xs.length - ys.length) none) 0
            ys.length = some (List.replicate xs.length none) ∧
          ∃ e1, Vector.ctor_copy P T other = .threw e1 0) := by
  refine ⟨fun e l h => (Vector.ctor_copy_threw P T other e l h).1, ?_⟩
  intro xs cap hv hs hfit hnew ys zs z e hxs hys hz
  obtain ⟨ws, h1, h2, h3, h4⟩ := Vector.ctor_copy_fails P T other xs cap hv hs hfit hnew
    ys zs z e hxs hys hz
  exact ⟨ws, h1, h2, h3, _, h4⟩

theorem C13_copy_construct_failure_cleans_up_witness :
    (fragile_full [1, 2, 13, 4]).Holds [1, 2, 13, 4] 4 ∧
    fragile_elem.copy_ctor 13 = .error "copy of 13" ∧
    ∃ ws : List Nat, ws.length = 2 ∧
      Vector.ctor_copy_loop fragile_elem (fragile_full [1, 2, 13, 4]) 4
          (List.replicate 4 none) 0
        = .threw (.elem "copy of 13") (ws.map some ++ List.replicate (4 - 2) none, 2) ∧
      Vector.DestroyN (ws.map some ++ List.replicate (4 - 2) none) 0 2
        = some (List.replicate 4 none) ∧
      ∃ e1, Vector.ctor_copy Platform.lp64 fragile_elem (fragile_full [1, 2, 13, 4])
        = .threw e1 0 :=
  ⟨⟨by decide, rfl, rfl, rfl⟩, rfl,
   (C13_copy_construct_failure_cleans_up Platform.lp64 fragile_elem
      (fragile_full [1, 2, 13, 4])).2 [1, 2, 13, 4] 4 ⟨by decide, rfl, rfl, rfl⟩ (by decide)
      (by decide) rfl [1, 2] [4] 13 "copy of 13" rfl
      (by
        intro y hy
        simp at hy
        rcases hy with hy | hy
        · subst hy; exact ⟨1, rfl⟩
        · subst hy; exact ⟨2, rfl⟩)
      rfl⟩

/-- C14 (the code departs from the claim): the handler of the copy constructor
throws a new `std::runtime_error(" ")` in place of the exception the element's copy
constructor raised. Copying the array [1, 2, 13, 4] of `fragile_elem`, whose copy
of 13 raises "copy of 13", throws `std::runtime_error(" ")`; and for no platform,
element type and source does the copy constructor throw an exception of the
element type. -/
theorem C14_copy_construct_substitutes_exception :
    (fragile_full [1, 2, 13, 4]).Holds [1, 2, 13, 4] 4 ∧
    fragile_elem.copy_ctor 13 = .error "copy of 13" ∧
    Vector.ctor_copy Platform.lp64 fragile_elem (fragile_full [1, 2, 13, 4])
      = .threw (.runtime_error " ") 0 ∧
    (∀ (P : Platform) (T : ElemType Nat String) (other : Vector Nat) (e : String) (l : Nat),
      Vector.ctor_copy P T other ≠ .threw (.elem e) l) := by
  refine ⟨⟨by decide, rfl, rfl, rfl⟩, rfl, rfl, ?_⟩
  intro P T other e l h
  rcases (Vector.ctor_copy_threw P T other _ l h).2 with h1 | h1 <;> cases h1

/-- C16 (counterexample to the claim as stated): on a machine with a 64-bit size_t
the byte size of 2^62 + 1 ints, (2^62 + 1) * 4, exceeds the largest size_t value;
the product wraps to 4, the allocator grants 4 bytes, and RawMemory(2^62 + 1)
returns normally with capacity 2^62 + 1 backed by a block with room for one int. -/
theorem C16_overflowing_request_is_granted :
    2 ^ Platform.lp64.word_bits ≤ (2 ^ 62 + 1) * int_elem.sizeof ∧
    Platform.lp64.wrap ((2 ^ 62 + 1) * int_elem.sizeof) = 4 ∧
    RawMemory.ctor_capacity Platform.lp64 int_elem (2 ^ 62 + 1)
      = .ok { buffer_ := some [none], capacity_ := 2 ^ 62 + 1 } := by
  refine ⟨by decide, by decide, ?_⟩
  have h : Platform.lp64.wrap ((2 ^ 62 + 1) * int_elem.sizeof) = 4 := by decide
  simp only [RawMemory.ctor_capacity, RawMemory.Allocate, h]
  rfl

/-- C16 (amended): RawMemory(0) yields the empty sentinel (null block, capacity
0) whatever the allocator would answer, so without calling it. For n other than 0
the allocator is asked for the size_t product n * sizeof(T), that is
n * sizeof(T) mod 2^w bytes: RawMemory(n) fails with std::bad_alloc exactly when
the allocator refuses that request, and otherwise has capacity n and a block with
room for (n * sizeof(T) mod 2^w) / sizeof(T) objects, which is n when the product
does not overflow. An overflowing product is not detected. -/
theorem C16_raw_memory_allocate (P : Platform) (T : ElemType α ε) :
    RawMemory.ctor_capacity P T 0
      = (.ok { buffer_ := none, capacity_ := 0 } : Except (Exception ε) (RawMemory α)) ∧
    (∀ n : Nat, n ≠ 0 →
      (P.operator_new (P.wrap (n * T.sizeof)) = false →
        RawMemory.ctor_capacity P T n
          = (.error .bad_alloc : Except (Exception ε) (RawMemory α))) ∧
      (P.operator_new (P.wrap (n * T.sizeof)) = true →
        RawMemory.ctor_capacity P T n
          = (.ok { buffer_ := some (List.replicate (P.wrap (n * T.sizeof) / T.sizeof) none),
                   capacity_ := n } : Except (Exception ε) (RawMemory α))) ∧
      (∀ e : Exception ε, RawMemory.ctor_capacity P T n = .error e →
        e = .bad_alloc ∧ P.operator_new (P.wrap (n * T.sizeof)) = false) ∧
      (0 < T.sizeof → n * T.sizeof < 2 ^ P.word_bits →
        P.wrap (n * T.sizeof) / T.sizeof = n)) := by
  refine ⟨by simp [RawMemory.ctor_capacity, RawMemory.Allocate], ?_⟩
  intro n hn
  refine ⟨RawMemory.ctor_capacity_refused P T n hn, ?_, ?_, ?_⟩
  · intro h
    simp [RawMemory.ctor_capacity, RawMemory.Allocate, hn, h]
  · intro e h
    have := RawMemory.ctor_capacity_error P T n e h
    exact ⟨this.1, this.2.2⟩
  · intro hs hfit
    rw [P.wrap_of_lt _ hfit, Nat.mul_div_cancel n hs]

theorem C16_raw_memory_allocate_witness :
    (3 : Nat) ≠ 0 ∧
    Platform.lp64.operator_new (Platform.lp64.wrap (3 * int_elem.sizeof)) = true ∧
    RawMemory.ctor_capacity Platform.lp64 int_elem 3
      = .ok { buffer_ := some (List.replicate
                (Platform.lp64.wrap (3 * int_elem.sizeof) / int_elem.sizeof) none),
              capacity_ := 3 } ∧
    Platform.lp64.wrap (3 * int_elem.sizeof) / int_elem.sizeof = 3 ∧
    (2000 : Nat) ≠ 0 ∧
    Platform.lp64.operator_new (Platform.lp64.wrap (2000 * int_elem.sizeof)) = false ∧
    RawMemory.ctor_capacity Platform.lp64 int_elem 2000
      = (.error .bad_alloc : Except (Exception Unit) (RawMemory Int)) :=
  ⟨by decide, by decide,
   ((C16_raw_memory_allocate Platform.lp64 int_elem).2 3 (by decide)).2.1 (by decide),
   ((C16_raw_memory_allocate Platform.lp64 int_elem).2 3 (by decide)).2.2.2 (by decide)
     (by decide),
   by decide, by decide,
   ((C16_raw_memory_allocate Platform.lp64 int_elem).2 2000 (by decide)).1 (by decide)⟩

/-- C17: starting from the empty array, when no element operation fails and blocks
of up to four elements are granted, PushBack of x1, x2, x3 returns each time and
leaves the contents [x1], [x1, x2], [x1, x2, x3] with the capacities 1, 2, 4 (so
size 3 at the end); Erase at index 1 then returns index 1 and leaves [x1, x3] with
size 2 and capacity 4; Insert of z at index 0 then returns index 0 and leaves
[z, x1, x3] with size 3 and capacity 4. Nothing is leaked on the way. -/
theorem C17_scenario (P : Platform) (T : ElemType α ε) (hT : T.NoFail)
    (hfit : 4 * T.sizeof < 2 ^ P.word_bits)
    (hnew : ∀ c, c ≤ 4 → P.operator_new (c * T.sizeof) = true) (x1 x2 x3 z : α) :
    ∃ v1 v2 v3 v4 v5 : Vector α,
      Vector.PushBack_copy P T Vector.ctor_default x1 = .ret () ⟨v1, 0⟩ ∧
      v1.Holds [x1] 1 ∧
      Vector.PushBack_copy P T v1 x2 = .ret () ⟨v2, 0⟩ ∧
      v2.Holds [x1, x2] 2 ∧
      Vector.PushBack_copy P T v2 x3 = .ret () ⟨v3, 0⟩ ∧
      v3.Holds [x1, x2, x3] 4 ∧ v3.Size = 3 ∧ v3.Capacity = 4 ∧
      Vector.Erase T v3 1 = .ret 1 v4 ∧
      v4.Holds [x1, x3] 4 ∧ v4.Size = 2 ∧
      Vector.Insert_copy P T v4 0 z = .ret 0 ⟨v5, 0⟩ ∧
      v5.Holds [z, x1, x3] 4 ∧ v5.Size = 3 ∧ v5.Capacity = 4 := by
  have hs := hT.sizeof_pos
  have h4 : 4 < 2 ^ P.word_bits :=
    lt_of_le_of_lt (Nat.le_mul_of_pos_right 4 hs) hfit
  have hmono : ∀ c, c ≤ 4 → c * T.sizeof < 2 ^ P.word_bits := fun c hc =>
    lt_of_le_of_lt (Nat.mul_le_mul_right _ hc) hfit
  obtain ⟨v1, e1, hv1⟩ := Vector.EmplaceBack_ok P hT Vector.ctor_default [] 0 (.lvalue x1)
    Vector.Holds.default (by omega) (fun _ => ⟨hmono _ (by simp), hnew _ (by simp)⟩)
  simp only [List.nil_append, List.length_nil, if_true, Arg.value] at hv1
  have hv1a : v1.Holds [x1] 1 := hv1
  obtain ⟨v2, e2, hv2⟩ := Vector.EmplaceBack_ok P hT v1 [x1] 1 (.lvalue x2) hv1a (by omega)
    (fun _ => ⟨hmono _ (by simp), hnew _ (by simp)⟩)
  have hv2a : v2.Holds [x1, x2] 2 := hv2
  obtain ⟨v3, e3, hv3⟩ := Vector.EmplaceBack_ok P hT v2 [x1, x2] 2 (.lvalue x3) hv2a
    (by omega) (fun _ => ⟨hmono _ (by simp), hnew _ (by simp)⟩)
  have hv3a : v3.Holds [x1, x2, x3] 4 := hv3
  obtain ⟨v4, e4, hv4⟩ := Vector.Erase_ok hT v3 [x1, x2, x3] 4 hv3a 1 (by simp)
  have hv4a : v4.Holds [x1, x3] 4 := hv4
  obtain ⟨v5, e5, hv5⟩ := Vector.Emplace_ok P hT v4 [x1, x3] 4 (.lvalue z) 0 hv4a (by simp)
    (Or.inr (by simp)) h4 (fun h => absurd h (by simp))
  have hv5a : v5.Holds [z, x1, x3] 4 := hv5
  refine ⟨v1, v2, v3, v4, v5, ?_, hv1a, ?_, hv2a, ?_, hv3a, hv3a.2.1, hv3a.2.2.1, e4, hv4a,
    hv4a.2.1, e5, hv5a, hv5a.2.1, hv5a.2.2.1⟩
  · simp only [Vector.PushBack_copy, e1]
  · simp only [Vector.PushBack_copy, e2]
  · simp only [Vector.PushBack_copy, e3]

theorem C17_scenario_witness :
    4 * int_elem.sizeof < 2 ^ Platform.lp64.word_bits ∧
    ∃ v1 v2 v3 v4 v5 : Vector Int,
      Vector.PushBack_copy Platform.lp64 int_elem Vector.ctor_default 1 = .ret () ⟨v1, 0⟩ ∧
      v1.Holds [1] 1 ∧
      Vector.PushBack_copy Platform.lp64 int_elem v1 2 = .ret () ⟨v2, 0⟩ ∧
      v2.Holds [1, 2] 2 ∧
      Vector.PushBack_copy Platform.lp64 int_elem v2 3 = .ret () ⟨v3, 0⟩ ∧
      v3.Holds [1, 2, 3] 4 ∧ v3.Size = 3 ∧ v3.Capacity = 4 ∧
      Vector.Erase int_elem v3 1 = .ret 1 v4 ∧
      v4.Holds [1, 3] 4 ∧ v4.Size = 2 ∧
      Vector.Insert_copy Platform.lp64 int_elem v4 0 0 = .ret 0 ⟨v5, 0⟩ ∧
      v5.Holds [0, 1, 3] 4 ∧ v5.Size = 3 ∧ v5.Capacity = 4 :=
  ⟨by decide,
   C17_scenario Platform.lp64 int_elem int_elem_nofail (by decide)
     (by
       intro c hc
       simp only [Platform.lp64, int_elem, decide_eq_true_eq]
       omega)
     1 2 3 0⟩

/-- The invariant size <= capacity holds for the array every constructor returns
(default, size-N, copy, move, the moved-from source included), and on an array
that satisfies it and whose size is a size_t value it holds again at every normal
return and at every exit by an exception of EmplaceBack, both PushBack, PopBack
(which leaves an empty array as it is), Emplace, both Insert, Erase, Resize,
Reserve, Swap (for both arrays), copy assignment and move assignment (for both
arrays). A call with undefined behaviour has no exit. -/
theorem Vector.size_within_capacity_at_exits (P : Platform) (T : ElemType α ε) :
    (Vector.ctor_default : Vector α).Inv ∧
    (∀ n : Nat, (Vector.ctor_size P T n).Sat (fun v _ => v.Inv) (fun _ _ => True)) ∧
    (∀ other : Vector α,
      (Vector.ctor_copy P T other).Sat (fun v _ => v.Inv) (fun _ _ => True)) ∧
    (∀ other : Vector α, other.Inv →
      (Vector.ctor_move other).1.Inv ∧ (Vector.ctor_move other).2.Inv) ∧
    (∀ v : Vector α, v.Inv → v.size_ < 2 ^ P.word_bits →
      (∀ a : Arg α,
        (Vector.EmplaceBack P T v a).Sat (fun _ s => s.self.Inv) (fun _ s => s.self.Inv)) ∧
      (∀ x : α,
        (Vector.PushBack_copy P T v x).Sat (fun _ s => s.self.Inv) (fun _ s => s.self.Inv) ∧
        (Vector.PushBack_move P T v x).Sat (fun _ s => s.self.Inv) (fun _ s => s.self.Inv)) ∧
      (∀ v1 : Vector α, Vector.PopBack v = some v1 → v1.Inv) ∧
      (v.size_ = 0 → Vector.PopBack v = some v) ∧
      (∀ (i : Nat) (a : Arg α), i ≤ v.size_ →
        (Vector.Emplace P T v i a).Sat (fun _ s => s.self.Inv) (fun _ s => s.self.Inv)) ∧
      (∀ (i : Nat) (x : α), i ≤ v.size_ →
        (Vector.Insert_copy P T v i x).Sat (fun _ s => s.self.Inv) (fun _ s => s.self.Inv) ∧
        (Vector.Insert_move P T v i x).Sat (fun _ s => s.self.Inv) (fun _ s => s.self.Inv)) ∧
      (∀ i : Nat, i < v.size_ →
        (Vector.Erase T v i).Sat (fun _ v1 => v1.Inv) (fun _ v1 => v1.Inv)) ∧
      (∀ n : Nat,
        (Vector.Resize P T v n).Sat (fun _ s => s.self.Inv) (fun _ s => s.self.Inv)) ∧
      (∀ n : Nat,
        (Vector.Reserve P T v n).Sat (fun _ s => s.self.Inv) (fun _ s => s.self.Inv)) ∧
      (∀ w : Vector α, w.Inv → (Vector.Swap v w).1.Inv ∧ (Vector.Swap v w).2.Inv) ∧
      (∀ rhs : Option (Vector α),
        (Vector.assign_copy P T v rhs).Sat (fun _ s => s.self.Inv) (fun _ s => s.self.Inv)) ∧
      (∀ rhs : Option (Vector α), (∀ r, rhs = some r → r.Inv) →
        (Vector.assign_move v rhs).1.Inv ∧
          ∀ r1, (Vector.assign_move v rhs).2 = some r1 → r1.Inv)) := by
  have hwrap : ∀ k : Nat, P.wrap k ≤ k := fun k => Nat.mod_le _ _
  have hEB : ∀ (v : Vector α), v.Inv → v.size_ < 2 ^ P.word_bits → ∀ a : Arg α,
      (Vector.EmplaceBack P T v a).Sat (fun _ s => s.self.Inv) (fun _ s => s.self.Inv) := by
    intro v hv hsz a
    have hv1 : v.size_ ≤ v.data_.capacity_ := hv
    cases hR : Vector.EmplaceBack P T v a with
    | ub => trivial
    | ret r s =>
      show s.self.size_ ≤ s.self.data_.capacity_
      obtain ⟨h1, h2⟩ := Vector.EmplaceBack_ret_capacity P T v a r s hsz hR
      have h3 := hwrap (v.size_ + 1)
      simp only [Vector.Capacity, RawMemory.Capacity] at h1
      rw [h2, h1]
      split <;> omega
    | threw e s =>
      show s.self.size_ ≤ s.self.data_.capacity_
      obtain ⟨h1, h2⟩ := Vector.EmplaceBack_threw_same P T v a e s hR
      rw [h1, h2]
      exact hv1
  have hEm : ∀ (v : Vector α), v.Inv → v.size_ < 2 ^ P.word_bits → ∀ (i : Nat) (a : Arg α),
      (Vector.Emplace P T v i a).Sat (fun _ s => s.self.Inv) (fun _ s => s.self.Inv) := by
    intro v hv hsz i a
    have hv1 : v.size_ ≤ v.data_.capacity_ := hv
    cases hR : Vector.Emplace P T v i a with
    | ub => trivial
    | ret r s =>
      show s.self.size_ ≤ s.self.data_.capacity_
      have h1 := Vector.Emplace_ret_capacity P T v i a r s hsz hR
      have h2 := Vector.Emplace_ret_size P T v i a r s hR
      have h3 := hwrap (v.size_ + 1)
      simp only [Vector.Capacity, RawMemory.Capacity] at h1
      rw [h2, h1]
      split <;> omega
    | threw e s =>
      show s.self.size_ ≤ s.self.data_.capacity_
      obtain ⟨h1, h2⟩ := Vector.Emplace_threw_same P T v i a e s hR
      rw [h1, h2]
      exact hv1
  refine ⟨Nat.le_refl _, ?_, ?_, ?_, ?_⟩
  · intro n
    cases hR : Vector.ctor_size P T n with
    | ub => trivial
    | threw e l => trivial
    | ret v l =>
      show v.size_ ≤ v.data_.capacity_
      obtain ⟨h1, h2⟩ := Vector.ctor_size_ret_same P T n v l hR
      omega
  · intro other
    cases hR : Vector.ctor_copy P T other with
    | ub => trivial
    | threw e l => trivial
    | ret v l =>
      show v.size_ ≤ v.data_.capacity_
      obtain ⟨h1, h2⟩ := Vector.ctor_copy_ret_same P T other v l hR
      omega
  · intro other ho
    exact ⟨ho, Nat.zero_le _⟩
  · intro v hv hsz
    have hv1 : v.size_ ≤ v.data_.capacity_ := hv
    refine ⟨hEB v hv hsz, ?_, ?_, ?_, fun i a _ => hEm v hv hsz i a,
      fun i x _ => ⟨hEm v hv hsz i (.lvalue x), hEm v hv hsz i (.rvalue x)⟩, ?_,
      fun n => Vector.Resize_inv P T v n hv, ?_, fun w hw => ⟨hw, hv⟩,
      fun rhs => Vector.assign_copy_inv P T v rhs hv, ?_⟩
    · intro x
      refine ⟨?_, ?_⟩
      · have := hEB v hv hsz (.lvalue x)
        unfold Vector.PushBack_copy
        cases hR : Vector.EmplaceBack P T v (.lvalue x) with
        | ub => trivial
        | ret r s => rw [hR] at this; exact this
        | threw e s => rw [hR] at this; exact this
      · have := hEB v hv hsz (.rvalue x)
        unfold Vector.PushBack_move
        cases hR : Vector.EmplaceBack P T v (.rvalue x) with
        | ub => trivial
        | ret r s => rw [hR] at this; exact this
        | threw e s => rw [hR] at this; exact this
    · intro v1 h
      show v1.size_ ≤ v1.data_.capacity_
      obtain ⟨h1, h2⟩ := Vector.PopBack_same v v1 h
      omega
    · intro h0
      unfold Vector.PopBack
      rw [if_pos h0]
    · intro i _
      cases hR : Vector.Erase T v i with
      | ub => trivial
      | ret r v1 =>
        show v1.size_ ≤ v1.data_.capacity_
        obtain ⟨h1, h2⟩ := (Vector.Erase_same T v i).2 r v1 hR
        omega
      | threw e v1 =>
        show v1.size_ ≤ v1.data_.capacity_
        obtain ⟨h1, h2⟩ := (Vector.Erase_same T v i).1 e v1 hR
        omega
    · intro n
      cases hR : Vector.Reserve P T v n with
      | ub => trivial
      | ret u s =>
        show s.self.size_ ≤ s.self.data_.capacity_
        obtain ⟨h1, h2⟩ := Vector.Reserve_ret_same P T v n s hR
        omega
      | threw e s =>
        show s.self.size_ ≤ s.self.data_.capacity_
        obtain ⟨h1, h2⟩ := Vector.Reserve_threw_same P T v n e s hR
        omega
    · intro rhs hr
      cases rhs with
      | none =>
        refine ⟨hv, ?_⟩
        intro r1 h
        simp [Vector.assign_move] at h
      | some r =>
        refine ⟨hr r rfl, ?_⟩
        intro r1 h
        simp only [Vector.assign_move, Option.some.injEq] at h
        rw [← h]
        exact hv

/-- C18 (the code departs from the claim): Insert at an index <= size is among
the operations the claim lists, and index = size of a non-empty array with spare
capacity is such an index; there the code hands std::move_backward the range
[size, size - 1) and has undefined behaviour, so there is no exit at which the
invariant could hold. The array [7] of capacity 3 is what Reserve(3) and
PushBack(7) make of the empty array, it satisfies size <= capacity, and both
Insert(end(), 8) and Emplace(end(), 8) on it are undefined, without a normal
return and without an exception. -/
theorem C18_insert_at_end_has_no_exit :
    Vector.Reserve Platform.lp64 int_elem Vector.ctor_default 3
      = .ret () ⟨{ data_ := { buffer_ := some [none, none, none], capacity_ := 3 },
                   size_ := 0 }, 0⟩ ∧
    Vector.PushBack_copy Platform.lp64 int_elem
        { data_ := { buffer_ := some [none, none, none], capacity_ := 3 }, size_ := 0 } 7
      = .ret () ⟨{ data_ := { buffer_ := some [some 7, none, none], capacity_ := 3 },
                   size_ := 1 }, 0⟩ ∧
    Vector.Inv ({ data_ := { buffer_ := some [some 7, none, none], capacity_ := 3 },
                  size_ := 1 } : Vector Int) ∧
    Vector.Holds ({ data_ := { buffer_ := some [some 7, none, none], capacity_ := 3 },
                    size_ := 1 } : Vector Int) [7] 3 ∧
    (1 : Nat) ≤ Vector.Size ({ data_ := { buffer_ := some [some 7, none, none],
                                          capacity_ := 3 }, size_ := 1 } : Vector Int) ∧
    Vector.Insert_copy Platform.lp64 int_elem
        { data_ := { buffer_ := some [some 7, none, none], capacity_ := 3 }, size_ := 1 } 1 8
      = .ub ∧
    Vector.Insert_move Platform.lp64 int_elem
        { data_ := { buffer_ := some [some 7, none, none], capacity_ := 3 }, size_ := 1 } 1 8
      = .ub ∧
    (∀ (a : Arg Int) (r : Nat) (s : Effect Int),
      Vector.Emplace Platform.lp64 int_elem
          { data_ := { buffer_ := some [some 7, none, none], capacity_ := 3 }, size_ := 1 } 1 a
        ≠ .ret r s) ∧
    (∀ (a : Arg Int) (e : Exception Unit) (s : Effect Int),
      Vector.Emplace Platform.lp64 int_elem
          { data_ := { buffer_ := some [some 7, none, none], capacity_ := 3 }, size_ := 1 } 1 a
        ≠ .threw e s) := by
  refine ⟨rfl, rfl, by decide, ⟨by decide, rfl, rfl, rfl⟩, by decide, rfl, rfl, ?_, ?_⟩
  · intro a r s h
    cases a <;> cases h
  · intro a e s h
    cases a <;> cases h

/-- C19 (the code departs from the claim): in the spare-capacity branch of Emplace
on a non-empty array the offset size is a valid insertion offset, and for it the
range handed to std::move_backward is [size, size - 1), whose first bound lies
behind its last bound. For the array [1, 2, 3] of capacity 4 and offset 3 the call
is std::move_backward(data_ + 3, data_ + 2, data_ + 3), which is undefined
behaviour, and so is the whole Emplace. -/
theorem C19_backward_shift_range_at_end :
    ints_spare.Holds [1, 2, 3] 4 ∧
    (ints_spare.size_ ≠ ints_spare.Capacity ∧ ints_spare.size_ ≠ 0) ∧
    (3 ≤ ints_spare.size_ ∧ ¬ (3 ≤ ints_spare.size_ - 1)) ∧
    (∀ b : Block Int,
      std.move_backward int_elem b 3 (ints_spare.size_ - 1) ints_spare.size_ = .ub) ∧
    Vector.Emplace Platform.lp64 int_elem ints_spare 3 (.lvalue 4) = .ub ∧
    Vector.Emplace Platform.lp64 int_elem ints_spare 3 (.rvalue 4) = .ub := by
  refine ⟨⟨by decide, rfl, rfl, rfl⟩, ⟨by decide, by decide⟩, ⟨by decide, by decide⟩, ?_,
    rfl, rfl⟩
  intro b
  simp [std.move_backward, ints_spare]

/-- C20 (the code departs from the claim): when the array is empty and has spare
capacity, Emplace first constructs the local `tmpl` from the forwarded arguments
and then constructs the element from the same arguments a second time. For
Insert("hello") with an rvalue, of a string type whose move leaves its source
empty, into the empty array of capacity 2, the element stored at index 0 is the
moved-from remnant "", not "hello". -/
theorem C20_rvalue_insert_into_empty_reserved :
    strings_reserved.Holds [] 2 ∧
    (strings_reserved.size_ = 0 ∧ 0 < strings_reserved.Capacity) ∧
    string_elem.construct (.rvalue "hello") = .ok ("hello", .rvalue "") ∧
    Vector.Insert_move Platform.lp64 string_elem strings_reserved 0 "hello"
      = .ret 0 ⟨{ data_ := { buffer_ := some [some "", none], capacity_ := 2 }, size_ := 1 },
                0⟩ ∧
    Vector.operator_index
      ({ data_ := { buffer_ := some [some "", none], capacity_ := 2 }, size_ := 1 } :
        Vector String) 0 = some "" ∧
    ("" : String) ≠ "hello" := by
  exact ⟨⟨by decide, rfl, rfl, rfl⟩, ⟨rfl, by decide⟩, rfl, rfl, rfl, by decide⟩

end AdvancedVector
